import Mathlib

/-!
Verification development for the `new-haystack-pipeline-draft` repository.

The file shallowly embeds the two pipeline drafts of the repository:

* `Haystack` — the draft under `src/haystack/` (weighted edges, the recursive
  `merge` helper of `src/haystack/pipeline/_utils.py`, and the serializer
  `cool_down` / `warm_up` of the same file).
* `NewHaystack` — the draft under `src/new-haystack/new_haystack/` (the
  FIFO scheduler of `Pipeline.run`, `Pipeline.connect`, and `find_actions`
  of `new_haystack/pipeline/_utils.py`).

Python dictionaries are modelled as insertion-ordered association lists with
unique keys, exactly as CPython dictionaries behave; `collections.OrderedDict`
is modelled the same way (assignment to a present key updates in place,
assignment to an absent key appends at the back, `popitem(last=False)` pops
the front).
-/

namespace PipeDefs

/-- Python value universe used for pipeline payloads and parameters in the
`src/haystack` draft: integers, strings, `None`, lists, tuples and
string-keyed dicts.  These are the JSON-serializable shapes the draft's
pipelines actually move around. -/
inductive Value where
  | vint (n : Int)
  | vstr (s : String)
  | vnone
  | vlist (xs : List Value)
  | vtuple (xs : List Value)
  | vdict (entries : List (String × Value))

/-- Dictionary lookup, `d.get(k, None)` on an insertion-ordered dict with
unique keys (first match). -/
def dlookup : List (String × Value) → String → Option Value
  | [], _ => none
  | (k', v) :: rest, k => if k' = k then some v else dlookup rest k

mutual

/-- Translation of `merge` from `src/haystack/pipeline/_utils.py` (lines
65–98).  The Python computes `{**second_dict, **first_dict}` (keys of
`second` first in their order, values of `first` winning on common keys,
then the keys found only in `first`), and then walks the keys fixing up two
cases: a key held by both sides whose two values are dicts is merged
recursively, and a key whose two values are same-type non-string iterables
is replaced by their concatenation.  `mergeFixup` produces the common-and-
second part, the `filter` appends the keys found only in `first`. -/
def merge (first second : List (String × Value)) : List (String × Value) :=
  mergeFixup first second ++ first.filter (fun kv => (dlookup second kv.1).isNone)
termination_by sizeOf first + sizeOf second + 1

/-- Walks the entries of `second` in order; an entry whose key also appears
in `first` receives the combined value (`combineVal`), the rest keep the
value from `second`.  This is the key order and the per-key value that
`{**second_dict, **first_dict}` followed by the fix-up loop of `merge`
produces. -/
def mergeFixup (first : List (String × Value)) :
    List (String × Value) → List (String × Value)
  | [] => []
  | (k, sv) :: rest =>
    (k, match h : dlookup first k with
        | some fv => combineVal fv sv
        | none => sv) :: mergeFixup first rest
termination_by s => sizeOf first + sizeOf s
decreasing_by
· have hsz : ∀ (l : List (String × Value)) (key : String) (v : Value),
      dlookup l key = some v → sizeOf v < sizeOf l := by
    intro l
    induction l with
    | nil => intro key v hv; simp [dlookup] at hv
    | cons hd tl ih =>
      intro key v hv
      rcases hd with ⟨k', v'⟩
      by_cases hk : k' = key
      · simp [dlookup, hk] at hv
        subst hv
        simp
        omega
      · simp [dlookup, hk] at hv
        have := ih key v hv
        simp
        omega
  have := hsz first k fv h
  simp only [List.cons.sizeOf_spec, Prod.mk.sizeOf_spec]
  omega
· simp only [List.cons.sizeOf_spec, Prod.mk.sizeOf_spec]
  omega

/-- Per-key combination rule of `merge` when both dictionaries hold the key:
two dicts merge recursively; two lists (or two tuples — same-type iterables)
are chained; in every other case the value of the first dictionary
dominates (`{**second_dict, **first_dict}` keeps `first`'s value and the
fix-up loop leaves it alone). -/
def combineVal : Value → Value → Value
  | .vdict f, .vdict s => .vdict (merge f s)
  | .vlist a, .vlist b => .vlist (a ++ b)
  | .vtuple a, .vtuple b => .vtuple (a ++ b)
  | a, _ => a
termination_by a b => sizeOf a + sizeOf b

end

/-- Lookup in an insertion-ordered Python dict (generic payload, first
match). -/
def alookup {α : Type} : List (String × α) → String → Option α
  | [], _ => none
  | (k', v) :: rest, k => if k' = k then some v else alookup rest k

/-- Python dict assignment `d[k] = v`: update in place when the key is
present, append at the back otherwise.  This is also exactly what
assignment into a `collections.OrderedDict` does. -/
def aset {α : Type} : List (String × α) → String → α → List (String × α)
  | [], k, v => [(k, v)]
  | (k', v') :: rest, k, v =>
    if k' = k then (k, v) :: rest else (k', v') :: aset rest k v

mutual

/-- Result of the Python round trip `json.loads(json.dumps(v))` on a
serializable value: dicts, lists, ints, strings and `None` come back as
they were (CPython preserves dict insertion order), while tuples are
encoded as JSON arrays and decoded as lists. -/
def jsonNormalize : Value → Value
  | .vint n => .vint n
  | .vstr s => .vstr s
  | .vnone => .vnone
  | .vlist xs => .vlist (jsonNormalizeList xs)
  | .vtuple xs => .vlist (jsonNormalizeList xs)
  | .vdict es => .vdict (jsonNormalizeEntries es)

/-- Pointwise `jsonNormalize` on a JSON array's elements. -/
def jsonNormalizeList : List Value → List Value
  | [] => []
  | v :: rest => jsonNormalize v :: jsonNormalizeList rest

/-- Pointwise `jsonNormalize` on a JSON object's values. -/
def jsonNormalizeEntries : List (String × Value) → List (String × Value)
  | [] => []
  | (k, v) :: rest => (k, jsonNormalize v) :: jsonNormalizeEntries rest

end

/-- Splits a character list at its first `'.'`: the part before and the
part after (`none` when there is no dot). -/
def splitFirstDot : List Char → Option (List Char × List Char)
  | [] => none
  | c :: rest =>
    if c = '.' then some ([], rest)
    else
      match splitFirstDot rest with
      | some (pre, post) => some (c :: pre, post)
      | none => none

/-- Python `name.split(".", maxsplit=1)` packaged as head and optional
rest ("a.b.c" gives ("a", some "b.c")). -/
def pySplit1 (s : String) : String × Option String :=
  match splitFirstDot s.data with
  | some (pre, post) => (String.mk pre, some (String.mk post))
  | none => (s, none)

/-- Python `name.split(".", maxsplit=2)[0]`: everything before the first
dot. -/
def pySplitHead (s : String) : String :=
  (pySplit1 s).1

/-- Python `"." in name`. -/
def hasDot (s : String) : Bool :=
  s.data.contains '.' 

end PipeDefs

namespace Haystack

open PipeDefs

/-- Default edge label of the `src/haystack` draft
(`DEFAULT_EDGE_NAME = "all"` in `src/haystack/actions/_utils.py`). -/
def DEFAULT_EDGE_NAME : String := "all"

/-- An action held by a graph node of the `src/haystack` draft.  A warm node
holds a live Python object: either a decorated function (identified by its
registered `__haystack_action__` key) or a class instance (identified by its
object identity `id`, carrying its class's registered key `cls` and its
`init_parameters` attribute).  A cold node holds a plain string naming the
registered action. -/
inductive HAction where
  | fn (key : String)
  | inst (id : Nat) (cls : String) (initParams : List (String × Value))
  | act (s : String)

/-- Python `==` between two action objects: functions and class instances
without a custom `__eq__` compare by object identity, two strings compare by
content, and values of different runtime types are unequal. -/
def actionEq : HAction → HAction → Bool
  | .fn a, .fn b => a == b
  | .inst i _ _, .inst j _ _ => i == j
  | .act a, .act b => a == b
  | _, _ => false

/-- The `"parameters"` attribute of a node: `None`, a live dict, or — after
`cool_down` — a JSON string.  A JSON string is represented by the dict that
`json.loads` recovers from it (`pcold d` stands for the text
`json.dumps` produced, whose decode is exactly `d`). -/
inductive HParams where
  | pnone
  | pwarm (d : List (String × Value))
  | pcold (d : List (String × Value))

/-- One node's attribute dict in the graph: its action, its default
parameters, and the two serializer-managed attributes `"init"` and
`"instance_id"` (absent unless a serialization pass set them). -/
structure HNode where
  action : HAction
  parameters : HParams
  init : Option (List (String × Value)) := none
  instanceId : Option String := none

/-- A directed labeled weighted edge (`label` and `weight` edge attributes
of the `src/haystack` draft). -/
structure HEdge where
  src : String
  dst : String
  label : String
  weight : Int

/-- The `networkx.DiGraph` of a `src/haystack` pipeline: insertion-ordered
nodes keyed by unique name, each carrying its attribute dict, plus the edge
list. -/
structure HGraph where
  nodes : List (String × HNode)
  edges : List HEdge

/-- An entry of `available_actions`: the registered object is either a
decorated function or a class (whose instantiation produces instances of
registered class key `cls`). -/
inductive RegEntry where
  | rfn (key : String)
  | rcls (cls : String)

/-- The `available_actions` registry: name to registered function/class. -/
abbrev Registry := List (String × RegEntry)

/-- Reading `action.__haystack_action__` in `cool_down`: a decorated
function carries its key, a class instance inherits its class's key, a
plain string has no such attribute (`none` models the `AttributeError`). -/
def haystackActionAttr : HAction → Option String
  | .fn key => some key
  | .inst _ cls _ => some cls
  | .act _ => none

/-- Python `hasattr(action, "init_parameters")`: only class instances carry
the attribute in this model (decorated functions and strings do not). -/
def hasInitParams : HAction → Bool
  | .inst _ _ _ => true
  | _ => false

/-- The `init_parameters` attribute of a class instance (unused default for
the other shapes, which never reach the access). -/
def instInit : HAction → List (String × Value)
  | .inst _ _ ip => ip
  | _ => []

/-- Serialization failures of `cool_down`
(`PipelineSerializationError` naming the offending node). -/
inductive HSerErr where
  | cantSerialize (name : String)

/-- Deserialization failures of `warm_up`
(`PipelineDeserializationError` naming the offending node). -/
inductive HDeserErr where
  | cantDeser (name : String)
  | cantDeserParams (name : String)

/-- Python `[key for key, value in reused_instances.items() if value ==
action][0]`: first registered name holding an action identical to `a`. -/
def firstKeyFor (reused : List (String × HAction)) (a : HAction) : String :=
  match reused.find? (fun kv => actionEq kv.2 a) with
  | some kv => kv.1
  | none => ""

/-- Encoding of the node's default parameters by `json.dumps` in
`cool_down` (lines 221–226 of `src/haystack/pipeline/_utils.py`): `None`
and `{}` are falsy and left untouched; a non-empty dict becomes the JSON
text whose decode is its normalized form.  A `pcold` value (a node whose
parameters are already a JSON string) is only reachable on a node whose
action is simultaneously warm — `cool_down` aborts on cold actions before
reaching the parameters — and is kept unchanged in this model. -/
def coolParams : HParams → HParams
  | .pnone => .pnone
  | .pwarm [] => .pwarm []
  | .pwarm d => .pcold (jsonNormalizeEntries d)
  | .pcold d => .pcold d

/-- Decoding of the parameters by `warm_up` (lines 180–184): only a string
is decoded with `json.loads`; `None` and live dicts pass through. -/
def warmParams : HParams → HParams
  | .pcold d => .pwarm d
  | p => p

/-- Translation of `cool_down` from `src/haystack/pipeline/_utils.py`
(lines 187–226), processing the graph's nodes in insertion order and
threading the `reused_instances` accumulator.  For each node: an action
already recorded in `reused_instances` (object identity) gets an
`instance_id` back-reference to the first name registered for it; otherwise
an action carrying `init_parameters` stores them under `"init"` and is
recorded in `reused_instances`; then the action is replaced by its
`__haystack_action__` string (failing with a serialization error when the
attribute is missing) and truthy parameters are JSON-encoded. -/
def cool_down_go (reused : List (String × HAction)) :
    List (String × HNode) → Except HSerErr (List (String × HNode))
  | [] => .ok []
  | (name, nd) :: rest =>
    let step1 :=
      if reused.any (fun kv => actionEq kv.2 nd.action) then
        ({ nd with instanceId := some (firstKeyFor reused nd.action) }, reused)
      else if hasInitParams nd.action then
        ({ nd with init := some (instInit nd.action) },
          reused ++ [(name, nd.action)])
      else (nd, reused)
    match haystackActionAttr step1.1.action with
    | none => .error (.cantSerialize name)
    | some s =>
      let nd2 := { step1.1 with
        action := .act s,
        parameters := coolParams step1.1.parameters }
      match cool_down_go step1.2 rest with
      | .ok rest' => .ok ((name, nd2) :: rest')
      | .error e => .error e

/-- Graph-level `cool_down`: walks all nodes (edges are untouched by the
Python function, which only rewrites node attributes). -/
def cool_down (g : HGraph) : Except HSerErr HGraph :=
  match cool_down_go [] g.nodes with
  | .ok nodes' => .ok { g with nodes := nodes' }
  | .error e => .error e

/-- Translation of `warm_up` from `src/haystack/pipeline/_utils.py` (lines
157–184), processing the graph's nodes in insertion order.  `done` is the
already-processed front part of the node dict (back-references read the current
graph, so they see the already-warmed earlier nodes), `nextId` supplies the
fresh object identity produced by instantiating a class.  A string action
is looked up in `available_actions` (a missing key raises the
deserialization error naming the node); if the registered object is a
class, a node carrying `instance_id` is rebound to the referenced node's
current action, and a node without one is freshly instantiated from its
`"init"` attribute (missing `"init"` raises).  Finally string parameters
are JSON-decoded. -/
def warm_up_go (avail : Registry) (done : List (String × HNode)) (nextId : Nat) :
    List (String × HNode) → Except HDeserErr (List (String × HNode) × Nat)
  | [] => .ok (done, nextId)
  | (name, nd) :: rest =>
    let warmed : Except HDeserErr (HNode × Nat) :=
      match nd.action with
      | .act s =>
        match alookup avail s with
        | none => .error (.cantDeser name)
        | some (.rfn key) => .ok ({ nd with action := .fn key }, nextId)
        | some (.rcls cls) =>
          match nd.instanceId with
          | some ref =>
            match alookup (done ++ (name, nd) :: rest) ref with
            | none => .error (.cantDeser name)
            | some refNode => .ok ({ nd with action := refNode.action }, nextId)
          | none =>
            match nd.init with
            | none => .error (.cantDeser name)
            | some ip => .ok ({ nd with action := .inst nextId cls ip }, nextId + 1)
      | _ => .ok (nd, nextId)
    match warmed with
    | .error e => .error e
    | .ok (nd1, nextId') =>
      let nd2 := { nd1 with parameters := warmParams nd1.parameters }
      warm_up_go avail (done ++ [(name, nd2)]) nextId' rest

/-- Graph-level `warm_up` (edges untouched).  `nextId` seeds the object
identities of the freshly created instances; any value strictly above every
identity already in use is faithful. -/
def warm_up (avail : Registry) (nextId : Nat) (g : HGraph) :
    Except HDeserErr (HGraph × Nat) :=
  match warm_up_go avail [] nextId g.nodes with
  | .ok (nodes', n') => .ok ({ g with nodes := nodes' }, n')
  | .error e => .error e

/-- Pair loop of `Pipeline.connect` of `src/haystack/pipeline/pipeline.py`
(lines 143–173): for each adjacent pair, the edge label is the explicit
`node.edge` suffix of the upstream reference or `DEFAULT_EDGE_NAME`; both
node names must exist (`ValueError` otherwise); if some edge between the
two nodes already exists (the check ignores the label in this draft) the
pair is skipped, otherwise an edge with the pair's weight is appended. -/
def connect_go (g : HGraph) :
    List String → List Int → Except String HGraph
  | a :: b :: rest, w :: wrest =>
    let (inName, edgeName) :=
      if hasDot a then
        let sp := pySplit1 a
        (sp.1, sp.2.getD DEFAULT_EDGE_NAME)
      else (a, DEFAULT_EDGE_NAME)
    let outName := pySplitHead b
    if (alookup g.nodes inName).isNone then
      .error (inName ++ " is not present in the pipeline.")
    else if (alookup g.nodes outName).isNone then
      .error (outName ++ " is not present in the pipeline.")
    else
      let g' :=
        if g.edges.any (fun e => e.src == inName && e.dst == outName) then g
        else { g with edges := g.edges ++ [⟨inName, outName, edgeName, w⟩] }
      connect_go g' (b :: rest) wrest
  | _ :: _ :: _, [] => .error "IndexError"
  | _, _ => .ok g

/-- Translation of `Pipeline.connect` of the `src/haystack` draft (lines
124–173): a falsy `weights` argument (absent or the empty list) defaults to
`[1] * len(nodes)` — one uniform weight per reference, of which the pair
loop consumes the first `len(nodes) - 1`; an explicit weights list must
have exactly one weight per created edge. -/
def connect (g : HGraph) (nodes : List String) (weights : Option (List Int)) :
    Except String HGraph :=
  let ws :=
    match weights with
    | none => List.replicate nodes.length 1
    | some [] => List.replicate nodes.length 1
    | some l => l
  match weights with
  | some (w :: l) =>
    if (w :: l).length ≠ nodes.length - 1 then
      .error "You must give as many weights as the edges to create, or no weights at all."
    else connect_go g nodes ws
  | _ => connect_go g nodes ws

/-- Is this a live (warm) action — a function or an instance, as opposed to
a cold string? -/
def isWarmA : HAction → Bool
  | .act _ => false
  | _ => true

/-- The string `__haystack_action__` resolves to on a warm action (the
registered key of a function, the class key of an instance). -/
def actionName' : HAction → String
  | .fn k => k
  | .inst _ cls _ => cls
  | .act s => s

/-- Does this action have the object identity `id` (it must be an
instance)? -/
def instIdEq (a : HAction) (id : Nat) : Bool :=
  match a with
  | .inst j _ _ => j == id
  | _ => false

/-- A warm action is consistently registered in `available_actions`: a
function under its own key, an instance's class under its class key. -/
def regOK (avail : Registry) : HAction → Bool
  | .fn k =>
    match alookup avail k with
    | some (.rfn k') => k' == k
    | _ => false
  | .inst _ cls _ =>
    match alookup avail cls with
    | some (.rcls cls') => cls' == cls
    | _ => false
  | .act _ => true

/-- Lookup in a `Nat`-keyed association list (first match). -/
def nlookup {α : Type} : List (Nat × α) → Nat → Option α
  | [], _ => none
  | (k', v) :: rest, k => if k' = k then some v else nlookup rest k

/-- The name of the first node among `pre` holding an instance action
identical to `a` — the node a `cool_down` back-reference points to
(`reused_instances` only ever records instance actions). -/
def firstSharer (pre : List (String × HNode)) (a : HAction) : Option String :=
  (pre.find? (fun kv => actionEq kv.2.action a && hasInitParams kv.2.action)).map (·.1)

/-- Specification mirror of `cool_down_go` as a total function: identical
branch structure, with the action-attribute read made total
(`cool_down_go` errors exactly where this reads a cold action's attribute;
the equality of the two on warm graphs is proved below). -/
def coolSpecGo (reused : List (String × HAction)) :
    List (String × HNode) → List (String × HNode)
  | [] => []
  | (name, nd) :: rest =>
    let step1 :=
      if reused.any (fun kv => actionEq kv.2 nd.action) then
        ({ nd with instanceId := some (firstKeyFor reused nd.action) }, reused)
      else if hasInitParams nd.action then
        ({ nd with init := some (instInit nd.action) },
          reused ++ [(name, nd.action)])
      else (nd, reused)
    (name, { step1.1 with
      action := .act (actionName' nd.action),
      parameters := coolParams step1.1.parameters }) :: coolSpecGo step1.2 rest

/-- Specification mirror of the whole round trip `warm_up ∘ cool_down` on
the ORIGINAL warm node list: `seen` maps an original instance identity to
the name of its first occurrence and the freshly built shared instance,
`ctr` is the next fresh identity.  The equality with the composition of
the two translated functions is proved below. -/
def warmSpecGo (ctr : Nat) (seen : List (Nat × (String × HAction))) :
    List (String × HNode) → List (String × HNode)
  | [] => []
  | (name, nd) :: rest =>
    match nd.action with
    | .fn k =>
      (name, { nd with
        action := .fn k,
        parameters := warmParams (coolParams nd.parameters) })
        :: warmSpecGo ctr seen rest
    | .inst id cls ip =>
      (match nlookup seen id with
      | some entry =>
        (name, { nd with
          action := entry.2,
          parameters := warmParams (coolParams nd.parameters),
          instanceId := some entry.1 })
          :: warmSpecGo ctr seen rest
      | none =>
        (name, { nd with
          action := .inst ctr cls ip,
          parameters := warmParams (coolParams nd.parameters),
          init := some ip })
          :: warmSpecGo (ctr + 1) (seen ++ [(id, (name, .inst ctr cls ip))]) rest)
    | .act _ => (name, nd) :: warmSpecGo ctr seen rest

/-- One buffered contribution of `Pipeline.run` of the `src/haystack` draft
(lines 296–301): a data payload, a parameters payload, and the weight of
the edge it travelled on. -/
structure Contribution where
  data : List (String × Value)
  parameters : List (String × Value)
  weight : Int

/-- Stable insertion into an ascending-by-weight list.  `sortByWeight`
inserts earlier-buffered elements into the sorted list of later ones, so
stability demands that the inserted element pass only strictly lighter
elements and stop before the first element of equal or greater weight. -/
def insertAsc (c : Contribution) : List Contribution → List Contribution
  | [] => [c]
  | d :: rest => if d.weight < c.weight then d :: insertAsc c rest else c :: d :: rest

/-- Stable ascending sort by weight — the effect of Python's stable
`list.sort(key=lambda x: x["weight"])` on the inputs buffer (line 301 of
`src/haystack/pipeline/pipeline.py`). -/
def sortByWeight : List Contribution → List Contribution
  | [] => []
  | c :: rest => insertAsc c (sortByWeight rest)

/-- Buffer insertion of `Pipeline.run` (lines 296–301): the new contribution
is appended and the buffer is re-sorted by ascending weight, stably. -/
def bufferAdd (buf : List Contribution) (c : Contribution) : List Contribution :=
  sortByWeight (buf ++ [c])

/-- Input merging step of `Pipeline.run` (lines 253–259): the data and
parameter payloads of the (already weight-sorted) buffered contributions
are folded into single dicts with `merge`, starting from empty dicts.
Since `merge`'s FIRST argument dominates, the earliest (lowest-weight)
contribution dominates the accumulated result. -/
def mergeContributions (buf : List Contribution) :
    (List (String × Value)) × (List (String × Value)) :=
  buf.foldl (fun acc c => (merge acc.1 c.data, merge acc.2 c.parameters)) ([], [])

/-- Concrete registry for exercising the serializer round trip: one
registered class and one registered function. -/
def c7Avail : Registry := [("Cls", .rcls "Cls"), ("f", .rfn "f")]

/-- Concrete warm graph: one class instance (object identity 7) shared by
nodes `a` and `b`, plus a function node `c`. -/
def c7Graph : HGraph :=
  { nodes :=
      [("a", ⟨.inst 7 "Cls" [("x", .vint 1)], .pwarm [("p", .vint 2)], none, none⟩),
       ("b", ⟨.inst 7 "Cls" [("x", .vint 1)], .pnone, none, none⟩),
       ("c", ⟨.fn "f", .pnone, none, none⟩)],
    edges := [⟨"a", "b", "all", 1⟩] }

end Haystack

namespace NewHaystack

open PipeDefs

/-- Data payload travelling through a `new_haystack` pipeline: the
`List[Tuple[str, Any]]` of `(edge, value)` pairs that `Pipeline.run`
buffers per node; `none` is the explicit Python `None` appended for a
missing edge. -/
abbrev DataList := List (String × Option Int)

/-- One node's parameter dict (payload values fixed to integers — the
scheduler never inspects them). -/
abbrev ParamDict := List (String × Int)

/-- The `parameters` mapping of `Pipeline.run`: node name to that node's
parameter dict. -/
abbrev Params := List (String × ParamDict)

/-- A node instance of the `new_haystack` draft: its declared `inputs` and
`outputs` edge-label lists (read by `Pipeline.connect`) and its `run`
method.  The Python `run` returns either a `(dict, parameters)` tuple or a
bare dict which `Pipeline.run` normalizes into such a tuple (lines
507–512); the model's action returns the normalized tuple directly.  The
`stores` argument is omitted: the scheduler passes it through opaquely. -/
structure NodeSpec where
  inputs : List String
  outputs : List String
  runAction : String → DataList → Params → DataList × Params

/-- The attribute dict `Pipeline.add_node` stores per node (line 140 of
`src/new-haystack/new_haystack/pipeline/pipeline.py`): the instance, the
default parameters (`[]` models the falsy `None`/`{}`), and the
input/output role flags.  The `visits` counter attribute is carried
separately as the mutable component of the pipeline state. -/
structure NHNode where
  inst : NodeSpec
  parameters : ParamDict := []
  inputNode : Bool := false
  outputNode : Bool := false

/-- A directed labeled edge of the `new_haystack` graph. -/
structure NHEdge where
  src : String
  dst : String
  label : String
deriving DecidableEq, Repr

/-- The `networkx.DiGraph` of a `new_haystack` pipeline. -/
structure NHGraph where
  nodes : List (String × NHNode)
  edges : List NHEdge

/-- The per-node `visits` attribute store (initialized to `0` by
`add_node`, incremented by `run`, and — notably — never reset). -/
abbrev Visits := List (String × Nat)

/-- Reads a node's `visits` attribute. -/
def getVisits (v : Visits) (n : String) : Nat := (alookup v n).getD 0

/-- One entry of the `inputs_buffer` `OrderedDict`: the pending `data`
contribution list and the `parameters` mapping travelling with it. -/
structure BufEntry where
  data : DataList
  parameters : Params
deriving DecidableEq, Repr

/-- The FIFO `inputs_buffer`: an `OrderedDict` from target node name to its
pending entry (front = earliest inserted). -/
abbrev Buffer := List (String × BufEntry)

/-- The `pipeline_results` accumulator: terminal node name to the list of
payloads it emitted (appended per visit, lines 515–524). -/
abbrev ResultMap := List (String × List DataList)

/-- Modelled from the spec: `locate_pipeline_input_nodes` is imported by
`new_haystack/pipeline/pipeline.py` from `new_haystack.pipeline._utils`,
but no definition of it exists under `src/`.  Per the spec (§4.6
"Initialization: every node with zero incoming edges is seeded with the
pipeline's external input", and the glossary "Entry node: a node with no
incoming edges"), it returns the nodes without incoming edges, in node
insertion order. -/
def locate_pipeline_input_nodes (g : NHGraph) : List String :=
  (g.nodes.map (·.1)).filter (fun n => !(g.edges.any (·.dst == n)))

/-- One expansion step of the reachable set: add the direct successors of
the nodes already seen. -/
def reachStep (edges : List NHEdge) (seen : List String) : List String :=
  seen ++ (edges.filter (fun e => seen.contains e.src && !seen.contains e.dst)).map (·.dst)

/-- Iterated expansion of the reachable set. -/
def reachIter (edges : List NHEdge) : Nat → List String → List String
  | 0, s => s
  | n + 1, s => reachIter edges n (reachStep edges s)

/-- Translation of `networkx.has_path(graph, a, b)`: is there a directed
path (possibly empty, so `hasPath g a a` always holds) from `a` to `b`?
Iterating the one-step expansion as many times as there are nodes reaches
the fixed point. -/
def hasPath (g : NHGraph) (a b : String) : Bool :=
  (reachIter g.edges g.nodes.length [a]).contains b

/-- CPython string comparison `a < b` on two lists of characters:
lexicographic by code point. -/
def strLtB : List Char → List Char → Bool
  | [], [] => false
  | [], _ :: _ => true
  | _ :: _, [] => false
  | a :: as, b :: bs =>
    if a.val.toNat < b.val.toNat then true
    else if b.val.toNat < a.val.toNat then false
    else strLtB as bs

/-- CPython string comparison `a < b` (the order `sorted` uses). -/
def pyStrLt (a b : String) : Bool := strLtB a.data b.data

/-- Stable insertion into an ascending list of strings. -/
def insertStr (x : String) : List String → List String
  | [] => [x]
  | y :: rest => if pyStrLt y x then y :: insertStr x rest else x :: y :: rest

/-- Python `sorted` on a list of strings. -/
def sortStrs : List String → List String
  | [] => []
  | x :: rest => insertStr x (sortStrs rest)

/-- Translation of the in-place removal loop of lines 454–457 of
`Pipeline.run`:

    for input_expected in inputs_to_wait_for:
        if input_expected in inputs_received:
            inputs_to_wait_for.pop(inputs_to_wait_for.index(input_expected))

CPython's `for` keeps an internal index `i` into the mutating list and
stops when `i` reaches the current length; popping an element therefore
skips the element that slides into position `i`.  `fuel` starts at the
original length (the index grows by one per iteration while the list never
grows). -/
def popLoop : Nat → Nat → List String → List String → List String
  | 0, _, lst, _ => lst
  | fuel + 1, i, lst, received =>
    if h : i < lst.length then
      let x := lst.get ⟨i, h⟩
      if received.contains x then popLoop fuel (i + 1) (lst.erase x) received
      else popLoop fuel (i + 1) lst received
    else lst

/-- Python `{**a, **b}` on two parameter dicts (keys of `a` in order, then
the new keys of `b`; values of `b` win on common keys). -/
def pdUpdate (a b : ParamDict) : ParamDict :=
  b.foldl (fun acc kv => aset acc kv.1 kv.2) a

/-- Fatal errors `Pipeline.run` can raise: the `PipelineMaxLoops` circuit
breaker, a `KeyError` on a buffer key that is not a graph node, and the
`ValueError` CPython raises when unpacking `zip(*[])` at lines 386–392
(a non-entry node every one of whose incoming edges is excluded from the
wait set). -/
inductive NHErr where
  | maxLoops (node : String)
  | noSuchNode (node : String)
  | emptyWaitSet (node : String)
deriving DecidableEq, Repr

/-- What one scheduler iteration did to the popped node: invoked its `run`
method (with the exact data snapshot passed to it), re-enqueued it at the
back, or skipped it (visit counted, `run` not invoked). -/
inductive StepEvent where
  | ran (node : String) (data : DataList)
  | requeued (node : String)
  | skippedNode (node : String)
deriving DecidableEq, Repr

/-- The transient per-run scheduler state: visit counters, the FIFO inputs
buffer, and the results accumulator. -/
structure NHState where
  visits : Visits
  buffer : Buffer
  results : ResultMap
deriving DecidableEq, Repr

/-- Outcome of one iteration of the `while inputs_buffer:` loop: the loop
exits (buffer empty), aborts with an error (the visit counters at that
moment are kept, since they live on the graph), or continues in a new
state having processed one buffer entry. -/
inductive StepOut where
  | finished (results : ResultMap)
  | failed (e : NHErr) (visits : Visits)
  | next (s : NHState) (ev : StepEvent)
deriving DecidableEq, Repr

/-- The incoming edges of a node, `graph.in_edges(node, data=True)` (global
edge insertion order restricted to the node). -/
def in_edges (g : NHGraph) (n : String) : List NHEdge :=
  g.edges.filter (·.dst == n)

/-- The outgoing edges of a node, `graph.out_edges(node, data=True)`. -/
def out_edges (g : NHGraph) (n : String) : List NHEdge :=
  g.edges.filter (·.src == n)

/-- Line 385: `is_merge_node = len(self.graph.in_edges(node_name)) != 1`. -/
def is_merge_node (g : NHGraph) (n : String) : Bool :=
  (in_edges g n).length != 1

/-- Lines 386–392: the incoming edges the node must wait for — all of them
unless it is a merge node, in which case edges whose source is reachable
from the node itself (loop back-edges) are excluded. -/
def wait_edges (g : NHGraph) (n : String) : List NHEdge :=
  (in_edges g n).filter (fun e => !is_merge_node g n || !hasPath g n e.src)

/-- `nodes_to_wait_for` of line 386: sources of the wait edges. -/
def nodes_to_wait_for (g : NHGraph) (n : String) : List String :=
  (wait_edges g n).map (·.src)

/-- `inputs_to_wait_for` of line 386: labels of the wait edges. -/
def inputs_to_wait_for (g : NHGraph) (n : String) : List String :=
  (wait_edges g n).map (·.label)

/-- The `**** RUN THE NODE ****` section of `Pipeline.run` (lines 466–549):
increment the node's visit counter; fold the node's truthy default
parameters under its own key at lowest priority (run-call parameters for
that name override them, line 479 reads the original `parameters`
argument); invoke the node; then route: a terminal node appends its payload
to `pipeline_results` under its own name, otherwise each outgoing edge
whose label appears in the output dict enqueues `(label, value)` on the
target's buffer entry (created empty at the back if absent) and the
entry's parameters are overwritten — except that a multi-output decision
node involved in a loop adds nothing at all on edges whose label is absent
from the output. -/
def runNode (g : NHGraph) (runParams : Params) (name : String) (nd : NHNode)
    (binp : BufEntry) (visits : Visits) (rest : Buffer) (results : ResultMap) :
    StepOut :=
  let visits' := aset visits name (getVisits visits name + 1)
  let callParams :=
    if nd.parameters ≠ [] then
      aset binp.parameters name
        (pdUpdate nd.parameters ((alookup runParams name).getD []))
    else binp.parameters
  let out := nd.inst.runAction name binp.data callParams
  let outEdges := out_edges g name
  if outEdges.isEmpty then
    let results' := aset results name (((alookup results name).getD []) ++ [out.1])
    .next ⟨visits', rest, results'⟩ (.ran name binp.data)
  else
    let isDecisionLoop :=
      (outEdges.any (fun e => hasPath g e.dst name)) && outEdges.length > 1
    let buf' := outEdges.foldl (fun b e =>
      if isDecisionLoop && (alookup out.1 e.label).isNone then b
      else
        let b1 := if (alookup b e.dst).isSome then b else b ++ [(e.dst, ⟨[], []⟩)]
        let entry := (alookup b1 e.dst).getD ⟨[], []⟩
        let entry1 :=
          match alookup out.1 e.label with
          | some v => { entry with data := entry.data ++ [(e.label, v)] }
          | none => entry
        aset b1 e.dst { entry1 with parameters := out.2 }) rest
    .next ⟨visits', buf', results⟩ (.ran name binp.data)

/-- Translation of one iteration of the `*** PIPELINE EXECUTION LOOP ***`
of `Pipeline.run` (`src/new-haystack/new_haystack/pipeline/pipeline.py`,
lines 362–549).  Pop the front (FIFO) buffer entry; abort when the node's
visits already exceed `max_loops_allowed`; an entry node runs immediately;
otherwise compute the wait set — all incoming edges unless the node is a
merge node (more than one incoming edge, or none), in which case edges
whose source is reachable from the node (loop back-edges) are excluded —
and: with inputs missing and some wait-set producer unvisited, re-enqueue
the entry unchanged at the back; with all producers visited and no data at
all, count a visit, seed each absent downstream buffer entry with an empty
contribution and skip the node; with all producers visited and partial
data, append an explicit `None` for each label the removal loop left, and
run. -/
def pipeStep (g : NHGraph) (maxLoops : Nat) (runParams : Params)
    (inputNodes : List String) : NHState → StepOut
  | ⟨visits, [], results⟩ => .finished results
  | ⟨visits, (name, binp) :: rest, results⟩ =>
    match alookup g.nodes name with
    | none => .failed (.noSuchNode name) visits
    | some nd =>
      if getVisits visits name > maxLoops then .failed (.maxLoops name) visits
      else if inputNodes.contains name then
        runNode g runParams name nd binp visits rest results
      else
        let inputsReceived := binp.data.map (·.1)
        if (wait_edges g name).isEmpty then .failed (.emptyWaitSet name) visits
        else
          if sortStrs (inputs_to_wait_for g name) ≠ sortStrs inputsReceived then
            if ¬ ((nodes_to_wait_for g name).all (fun p => getVisits visits p > 0)) then
              .next ⟨visits, aset rest name binp, results⟩ (.requeued name)
            else if inputsReceived.isEmpty then
              let visits' := aset visits name (getVisits visits name + 1)
              let downstream := (out_edges g name).map (·.dst)
              let buf' := downstream.foldl
                (fun b dn =>
                  if (alookup b dn).isSome then b
                  else b ++ [(dn, ⟨[], runParams⟩)]) rest
              .next ⟨visits', buf', results⟩ (.skippedNode name)
            else
              let missing := popLoop (inputs_to_wait_for g name).length 0
                (inputs_to_wait_for g name) inputsReceived
              runNode g runParams name nd
                { binp with data := binp.data ++ missing.map (fun l => (l, (none : Option Int))) }
                visits rest results
          else runNode g runParams name nd binp visits rest results

/-- Outcome of the whole execution loop, with the final visit counters
(which live on the graph and survive the run). -/
inductive LoopRes where
  | done (results : ResultMap) (visits : Visits)
  | fail (e : NHErr) (visits : Visits)
  | outOfFuel (s : NHState)
deriving DecidableEq, Repr

/-- The `while inputs_buffer:` loop, fuelled. -/
def runLoop (g : NHGraph) (maxLoops : Nat) (runParams : Params)
    (inputNodes : List String) : Nat → NHState → LoopRes
  | 0, s => .outOfFuel s
  | fuel + 1, s =>
    match pipeStep g maxLoops runParams inputNodes s with
    | .finished r => .done r s.visits
    | .failed e v => .fail e v
    | .next s' _ => runLoop g maxLoops runParams inputNodes fuel s'

/-- The event trace of the execution loop (what the scheduler did to each
popped entry, in order). -/
def runTrace (g : NHGraph) (maxLoops : Nat) (runParams : Params)
    (inputNodes : List String) : Nat → NHState → List StepEvent
  | 0, _ => []
  | fuel + 1, s =>
    match pipeStep g maxLoops runParams inputNodes s with
    | .finished _ => []
    | .failed _ _ => []
    | .next s' ev => ev :: runTrace g maxLoops runParams inputNodes fuel s'

/-- The node a step event concerns. -/
def evName : StepEvent → String
  | .ran n _ => n
  | .requeued n => n
  | .skippedNode n => n

/-- The ergonomic unwrapping of lines 553–557: a result mapping with a
single key is unwrapped to its payload list, and a single payload is
unwrapped further. -/
inductive PipeResult where
  | rmap (m : ResultMap)
  | rlist (l : List DataList)
  | rsingle (d : DataList)
deriving DecidableEq, Repr

/-- Result simplification of `Pipeline.run` (lines 553–557). -/
def simplifyResults (m : ResultMap) : PipeResult :=
  match m with
  | [(_, [d])] => .rsingle d
  | [(_, l)] => .rlist l
  | _ => .rmap m

/-- A `new_haystack` `Pipeline` object: its graph, the per-node `visits`
attributes stored on the graph's nodes, and `max_loops_allowed`. -/
structure NHPipeline where
  graph : NHGraph
  visits : Visits
  maxLoopsAllowed : Nat := 100

/-- Seeding of the entry nodes (lines 350–356): every input node receives
the whole pipeline input and parameters as its buffer entry. -/
def initBuffer (inputNodes : List String) (data : DataList) (params : Params) :
    Buffer :=
  inputNodes.foldl (fun b n => aset b n ⟨data, params⟩) []

/-- Outcome of `Pipeline.run` as seen by the caller. -/
inductive RunRes where
  | ok (r : PipeResult)
  | err (e : NHErr)
  | outOfFuel
deriving DecidableEq, Repr

/-- Translation of `Pipeline.run` (lines 281–559): seed the entry nodes,
drive the execution loop, and return the (simplified) results together
with the pipeline as it is left behind — its graph untouched, its `visits`
attributes as the loop left them (the draft never resets them). -/
def nhRun (p : NHPipeline) (fuel : Nat) (data : DataList) (params : Params) :
    RunRes × NHPipeline :=
  let inputNodes := locate_pipeline_input_nodes p.graph
  let st : NHState := ⟨p.visits, initBuffer inputNodes data params, []⟩
  match runLoop p.graph p.maxLoopsAllowed params inputNodes fuel st with
  | .done r v => (.ok (simplifyResults r), { p with visits := v })
  | .fail e v => (.err e, { p with visits := v })
  | .outOfFuel s => (.outOfFuel, { p with visits := s.visits })

/-- Translation of `Pipeline.add_node` (lines 109–140): a duplicate name
raises; otherwise the node is appended disconnected with its `visits`
attribute initialized to `0`.  (The is-a-Haystack-node and
parameters-must-be-a-dict checks are enforced by the types here.) -/
def add_node (p : NHPipeline) (name : String) (nd : NHNode) :
    Except String NHPipeline :=
  if (alookup p.graph.nodes name).isSome then
    .error ("Node named " ++ name ++ " already exists: choose another name.")
  else
    .ok { p with
      graph := { p.graph with nodes := p.graph.nodes ++ [(name, nd)] },
      visits := p.visits ++ [(name, 0)] }

/-- Errors `Pipeline.connect` can raise: a `KeyError` reading the instance
of an unknown node, the ambiguous-edge error for an unlabeled multi-output
upstream node, the (unreachable) not-present checks, the `ValueError` of
`list.index` while computing free slots, and the declared-slot mismatch. -/
inductive NHConnErr where
  | keyError (name : String)
  | ambiguousEdge (upstream : String)
  | notPresent (name : String)
  | valueError (name : String)
  | slotMismatch (upstream downstream label : String)
deriving DecidableEq, Repr

/-- The free-slot computation of lines 200–209: remove from the declared
slot list the first occurrence of each used label (edge insertion order);
`list.index` raises `ValueError` when a used label is not among the
remaining declared slots. -/
def eraseSlots (declared : List String) : List String → Except Unit (List String)
  | [] => .ok declared
  | l :: rest =>
    if declared.contains l then eraseSlots (declared.erase l) rest
    else .error ()

/-- `networkx.DiGraph.add_edge(u, v, label=l)`: a `DiGraph` holds at most
one edge per ordered pair, so an existing `(u, v)` edge has its label
overwritten, and a new edge is appended otherwise. -/
def nxAddEdge (edges : List NHEdge) (u v l : String) : List NHEdge :=
  if edges.any (fun e => e.src == u && e.dst == v) then
    edges.map (fun e => if e.src == u && e.dst == v then { e with label := l } else e)
  else edges ++ [⟨u, v, l⟩]

/-- Result of processing one adjacent pair inside `Pipeline.connect`:
continue with the next pair, or — when an edge with the same label between
the same two nodes already exists — `return` from the whole call (line
198 executes `return`, not `continue`). -/
inductive PairRes where
  | go (g : NHGraph)
  | stop (g : NHGraph)

/-- One adjacent pair of `Pipeline.connect` of the `new_haystack` draft
(lines 154–236), in statement order: resolve the edge label (explicit
`node.edge` suffix, or the single declared output — reading the instance
of a missing node raises `KeyError` before the not-present checks); on an
existing same-label edge between the pair, `return`; otherwise check the
label is a free declared slot on both sides and add the edge. -/
def connectPair (g : NHGraph) (a b : String) : Except NHConnErr PairRes :=
  let resolved : Except NHConnErr (String × String) :=
    if hasDot a then
      let sp := pySplit1 a
      match alookup g.nodes sp.1 with
      | none => .error (.keyError sp.1)
      | some _ => .ok (sp.1, sp.2.getD "")
    else
      match alookup g.nodes a with
      | none => .error (.keyError a)
      | some nd =>
        if nd.inst.outputs.length ≠ 1 then .error (.ambiguousEdge a)
        else .ok (a, nd.inst.outputs.headD "")
  match resolved with
  | .error e => .error e
  | .ok (upName, edgeName) =>
    let downName := pySplitHead b
    match alookup g.nodes downName with
    | none => .error (.keyError downName)
    | some downNd =>
      if (alookup g.nodes upName).isNone then .error (.notPresent upName)
      else if (alookup g.nodes downName).isNone then .error (.notPresent downName)
      else if g.edges.any (fun e =>
          e.src == upName && e.dst == downName && e.label == edgeName) then
        .ok (.stop g)
      else
        let upNd := (alookup g.nodes upName).getD downNd
        let inLabels := (g.edges.filter (·.dst == downName)).map (·.label)
        let outLabels := (g.edges.filter (·.src == upName)).map (·.label)
        match eraseSlots downNd.inst.inputs inLabels with
        | .error _ => .error (.valueError downName)
        | .ok freeIn =>
          match eraseSlots upNd.inst.outputs outLabels with
          | .error _ => .error (.valueError upName)
          | .ok freeOut =>
            if !(freeIn.contains edgeName) || !(freeOut.contains edgeName) then
              .error (.slotMismatch upName downName edgeName)
            else .ok (.go { g with edges := nxAddEdge g.edges upName downName edgeName })

/-- The pair loop of `Pipeline.connect` (line 155): adjacent pairs are
processed left to right; an error aborts, and a `stop` (duplicate edge)
returns the graph as built so far, leaving the remaining pairs
unprocessed. -/
def connect_pairs (g : NHGraph) : List String → Except NHConnErr NHGraph
  | a :: b :: rest =>
    match connectPair g a b with
    | .error e => .error e
    | .ok (.stop g') => .ok g'
    | .ok (.go g') => connect_pairs g' (b :: rest)
  | _ => .ok g

/-- Translation of `Pipeline.connect` of the `new_haystack` draft. -/
def connect (g : NHGraph) (nodes : List String) : Except NHConnErr NHGraph :=
  connect_pairs g nodes

/-- An entity discovered by the registry scan of `find_actions`
(`src/new-haystack/new_haystack/pipeline/_utils.py`, lines 37–93): its
`__haystack_action__` name, its `__module__`, and an object identity.  The
scan only considers entities carrying the marker attribute, so the model's
inputs list exactly those, per module and in `getmembers` order. -/
structure Entity where
  actionName : String
  module : String
  id : Nat
deriving DecidableEq, Repr

/-- Processing of a single discovered entity by `find_actions` (lines
59–87): on a name collision, the previously registered entity is
re-registered under `other.__module__ + "." + name`, the new entity under
`search_module + "." + name`, the collided name is appended to
`duplicate_names`, and in every case the unqualified name is (re)bound to
the new entity. -/
def scanEntity (actions : List (String × Entity)) (dups : List String)
    (searchMod : String) (e : Entity) :
    (List (String × Entity)) × List String :=
  match alookup actions e.actionName with
  | some other =>
    let actions1 := aset actions (other.module ++ "." ++ e.actionName) other
    let actions2 := aset actions1 (searchMod ++ "." ++ e.actionName) e
    (aset actions2 e.actionName e, dups ++ [e.actionName])
  | none => (aset actions e.actionName e, dups)

/-- The deletion loop of lines 90–91: `del actions[duplicate]` for each
recorded duplicate, in order; deleting an absent key raises `KeyError`
(carried as the offending name). -/
def delAll (actions : List (String × Entity)) :
    List String → Except String (List (String × Entity))
  | [] => .ok actions
  | d :: rest =>
    if (alookup actions d).isSome then
      delAll (actions.filter (fun kv => kv.1 ≠ d)) rest
    else .error d

/-- Translation of `find_actions` (lines 37–93).  Note that
`duplicate_names = []` sits inside the per-module loop (line 54), so the
final deletion pass only sees the duplicates recorded while scanning the
LAST module of the search list.  (With an empty module list Python would
hit an unbound `duplicate_names`; the model starts from `[]`.) -/
def find_actions (modules : List (String × List Entity)) :
    Except String (List (String × Entity)) :=
  let st := modules.foldl
    (fun (st : (List (String × Entity)) × List String) m =>
      m.2.foldl (fun st2 e => scanEntity st2.1 st2.2 m.1 e) (st.1, []))
    ([], [])
  delAll st.1 st.2

end NewHaystack


namespace NewHaystack

/-- A minimal pass-through node instance used by the concrete test
pipelines: one declared input, one declared output, `run` returns its data
unchanged. -/
def passSpec : NodeSpec :=
  { inputs := ["in"], outputs := ["out"], runAction := fun _ d p => (d, p) }

/-- Two-node fixture `a --x--> b` for the pruning scenarios: `a` is the
entry node, `b` waits on the single edge `x`. -/
def pruneFixture : NHGraph :=
  { nodes := [("a", { inst := passSpec }), ("b", { inst := passSpec })],
    edges := [⟨"a", "b", "x"⟩] }

/-- Merge fixture: entry nodes `a` and `c` both feed the merge node `m`
(edges `x` and `y`). -/
def mergeFixture : NHGraph :=
  { nodes := [("a", { inst := passSpec }), ("c", { inst := passSpec }),
              ("m", { inst := passSpec })],
    edges := [⟨"a", "m", "x"⟩, ⟨"c", "m", "y"⟩] }

/-- A node instance that emits the constant `v` on its single output edge
`out`, ignoring its input. -/
def emitSpec (out : String) (v : Int) : NodeSpec :=
  { inputs := ["in"], outputs := [out],
    runAction := fun _ _ p => ([(out, some v)], p) }

/-- A terminal merge node instance declaring the two inputs `x` and `y` and
no outputs; its payload is its merged input snapshot. -/
def mergeEndSpec : NodeSpec :=
  { inputs := ["x", "y"], outputs := [], runAction := fun _ d p => (d, p) }

/-- Two independent branches of different lengths feeding the merge node
`m`: the short branch `e1 --x--> m` and the long branch
`e2 --w--> c --y--> m`. -/
def branchFixture : NHGraph :=
  { nodes := [("e1", { inst := emitSpec "x" 3 }), ("e2", { inst := emitSpec "w" 5 }),
              ("c", { inst := emitSpec "y" 15 }), ("m", { inst := mergeEndSpec })],
    edges := [⟨"e1", "m", "x"⟩, ⟨"e2", "c", "w"⟩, ⟨"c", "m", "y"⟩] }

/-- The same graph with the two entry nodes inserted in the opposite order,
so the initial buffer seeds them in the opposite order. -/
def branchFixtureRev : NHGraph :=
  { nodes := [("e2", { inst := emitSpec "w" 5 }), ("e1", { inst := emitSpec "x" 3 }),
              ("c", { inst := emitSpec "y" 15 }), ("m", { inst := mergeEndSpec })],
    edges := [⟨"e1", "m", "x"⟩, ⟨"e2", "c", "w"⟩, ⟨"c", "m", "y"⟩] }

/-- A single-node pipeline with `max_loops_allowed = 0`, as `add_node`
leaves it: one entry node `a` with its visits attribute at `0`. -/
def singleP : NHPipeline :=
  { graph := { nodes := [("a", { inst := passSpec })], edges := [] },
    visits := [("a", 0)],
    maxLoopsAllowed := 0 }

/-- A node instance with explicitly declared free slots, for the `connect`
scenarios. -/
def connSpec (ins outs : List String) : NodeSpec :=
  { inputs := ins, outputs := outs, runAction := fun _ d p => (d, p) }

/-- Three disconnected nodes `a`, `b`, `c` whose declared slots admit the
chain `a --o1--> b --o2--> c`. -/
def connFixture : NHGraph :=
  { nodes := [("a", { inst := connSpec ["i"] ["o1"] }),
              ("b", { inst := connSpec ["o1"] ["o2"] }),
              ("c", { inst := connSpec ["o2"] ["o3"] })],
    edges := [] }

/-- The final visit counters a loop outcome leaves on the graph. -/
def loopVisits : LoopRes → Visits
  | .done _ v => v
  | .fail _ v => v
  | .outOfFuel s => s.visits

end NewHaystack


namespace PipeDefs

theorem alookup_aset {α : Type} (l : List (String × α)) (k : String) (v : α) :
    alookup (aset l k v) k = some v := by
  induction l with
  | nil => simp [aset, alookup]
  | cons hd tl ih =>
    rcases hd with ⟨k', v'⟩
    by_cases hk : k' = k
    · simp [aset, alookup, hk]
    · simp [aset, alookup, hk, ih]

theorem alookup_aset_ne {α : Type} (l : List (String × α)) (k k' : String) (v : α)
    (h : k' ≠ k) : alookup (aset l k v) k' = alookup l k' := by
  induction l with
  | nil => simp [aset, alookup, Ne.symm h]
  | cons hd tl ih =>
    rcases hd with ⟨k₀, v₀⟩
    by_cases hk : k₀ = k
    · subst hk
      simp [aset, alookup, Ne.symm h]
    · simp [aset, alookup, hk, ih]

theorem aset_absent {α : Type} (l : List (String × α)) (k : String) (v : α)
    (h : alookup l k = none) : aset l k v = l ++ [(k, v)] := by
  induction l with
  | nil => simp [aset]
  | cons hd tl ih =>
    rcases hd with ⟨k₀, v₀⟩
    by_cases hk : k₀ = k
    · simp [alookup, hk] at h
    · simp [alookup, hk] at h
      simp [aset, hk, ih h]

end PipeDefs

namespace NewHaystack

open PipeDefs

theorem getVisits_aset (v : Visits) (n : String) (k : Nat) :
    getVisits (aset v n k) n = k := by
  simp [getVisits, alookup_aset]

theorem getVisits_aset_ne (v : Visits) (n m : String) (k : Nat) (h : m ≠ n) :
    getVisits (aset v n k) m = getVisits v m := by
  simp [getVisits, alookup_aset_ne _ _ _ _ h]

/-- Both branches of `runNode` produce a `next` outcome whose event is
`ran` with the exact data snapshot handed to the node, and whose visit map
is the old one with the node's counter incremented. -/
theorem runNode_shape (g : NHGraph) (rp : Params) (name : String) (nd : NHNode)
    (binp : BufEntry) (visits : Visits) (rest : Buffer) (results : ResultMap) :
    ∃ buf' res',
      runNode g rp name nd binp visits rest results =
        .next ⟨aset visits name (getVisits visits name + 1), buf', res'⟩
          (.ran name binp.data) := by
  unfold runNode
  dsimp only
  split
  · exact ⟨_, _, rfl⟩
  · exact ⟨_, _, rfl⟩

/-- `runNode` never produces a `failed` outcome (node exceptions are not
modelled; the node's `run` is total here). -/
theorem runNode_ne_failed (g : NHGraph) (rp : Params) (name : String) (nd : NHNode)
    (binp : BufEntry) (visits : Visits) (rest : Buffer) (results : ResultMap)
    (e : NHErr) (w : Visits) :
    runNode g rp name nd binp visits rest results ≠ .failed e w := by
  obtain ⟨b1, r1, h⟩ := runNode_shape g rp name nd binp visits rest results
  rw [h]
  exact fun hh => StepOut.noConfusion hh

/-- Enumeration of the possible outcomes of one scheduler iteration on a
non-empty buffer whose front names an existing node: the loop-bound abort
(exactly when the counter already exceeds the bound), the `zip(*[])`
crash, a re-enqueue (buffer entry moved unchanged to the back, visits
untouched), a skip, or a run — the latter two incrementing the node's
counter. -/
theorem pipeStep_enum (g : NHGraph) (maxLoops : Nat) (runParams : Params)
    (inputNodes : List String) (v : Visits) (r : ResultMap) (name : String)
    (binp : BufEntry) (rest : Buffer) (nd : NHNode)
    (hnd : alookup g.nodes name = some nd) :
    ∃ out, pipeStep g maxLoops runParams inputNodes ⟨v, (name, binp) :: rest, r⟩ = out
      ∧ ((maxLoops < getVisits v name ∧ out = .failed (.maxLoops name) v)
        ∨ (getVisits v name ≤ maxLoops ∧
            (out = .failed (.emptyWaitSet name) v
            ∨ out = .next ⟨v, aset rest name binp, r⟩ (.requeued name)
            ∨ (∃ buf', out = .next ⟨aset v name (getVisits v name + 1), buf', r⟩
                (.skippedNode name))
            ∨ (∃ d buf' res', out = .next ⟨aset v name (getVisits v name + 1), buf', res'⟩
                (.ran name d))))) := by
  refine ⟨pipeStep g maxLoops runParams inputNodes ⟨v, (name, binp) :: rest, r⟩, rfl, ?_⟩
  simp only [pipeStep, hnd]
  split
  next hv => exact Or.inl ⟨hv, rfl⟩
  next hv =>
    have hle : getVisits v name ≤ maxLoops := Nat.not_lt.mp hv
    refine Or.inr ⟨hle, ?_⟩
    split
    next hin =>
      obtain ⟨b1, r1, hrun⟩ := runNode_shape g runParams name nd binp v rest r
      exact Or.inr (Or.inr (Or.inr ⟨binp.data, b1, r1, hrun⟩))
    next hin =>
      split
      next hempty => exact Or.inl rfl
      next hempty =>
        split
        next hsort =>
          split
          next hall => exact Or.inr (Or.inl rfl)
          next hall =>
            split
            next hrecv => exact Or.inr (Or.inr (Or.inl ⟨_, rfl⟩))
            next hrecv =>
              obtain ⟨b1, r1, hrun⟩ := runNode_shape g runParams name nd _ v rest r
              exact Or.inr (Or.inr (Or.inr ⟨_, b1, r1, hrun⟩))
        next hsort =>
          obtain ⟨b1, r1, hrun⟩ := runNode_shape g runParams name nd binp v rest r
          exact Or.inr (Or.inr (Or.inr ⟨binp.data, b1, r1, hrun⟩))

/-- Inversion for `runNode`: a `next` outcome carries the incremented visit
map and the `ran` event with the node's exact input snapshot. -/
theorem runNode_event (g : NHGraph) (rp : Params) (name : String) (nd : NHNode)
    (binp : BufEntry) (visits : Visits) (rest : Buffer) (results : ResultMap)
    {s' : NHState} {ev : StepEvent}
    (h : runNode g rp name nd binp visits rest results = .next s' ev) :
    s'.visits = aset visits name (getVisits visits name + 1)
      ∧ ev = .ran name binp.data := by
  obtain ⟨b1, r1, hs⟩ := runNode_shape g rp name nd binp visits rest results
  rw [hs] at h
  injection h with h1 h2
  subst h1
  exact ⟨rfl, h2.symm⟩


/-- Inversion of a `requeued` outcome: it happens only for a non-entry node
with inputs missing and some wait-set producer still unvisited, and it
moves the popped entry unchanged to the back of the buffer, leaving visits
and results untouched. -/
theorem pipeStep_requeued_inv (g : NHGraph) (maxLoops : Nat) (runParams : Params)
    (inputNodes : List String) (v : Visits) (r : ResultMap) (name : String)
    (binp : BufEntry) (rest : Buffer) (nd : NHNode) (s' : NHState)
    (hnd : alookup g.nodes name = some nd)
    (h : pipeStep g maxLoops runParams inputNodes ⟨v, (name, binp) :: rest, r⟩
      = .next s' (.requeued name)) :
    s' = ⟨v, aset rest name binp, r⟩
    ∧ name ∉ inputNodes
    ∧ sortStrs (inputs_to_wait_for g name) ≠ sortStrs (binp.data.map (·.1))
    ∧ ∃ p ∈ nodes_to_wait_for g name, getVisits v p = 0 := by
  simp only [pipeStep, hnd] at h
  split at h
  next hv => exact StepOut.noConfusion h
  next hv =>
    split at h
    next hin =>
      obtain ⟨_, h2⟩ := runNode_event _ _ _ _ _ _ _ _ h
      exact StepEvent.noConfusion h2
    next hin =>
      split at h
      next => exact StepOut.noConfusion h
      next hwe =>
        split at h
        next hsort =>
          split at h
          next hall =>
            injection h with h1 h2
            refine ⟨h1.symm, by simpa using hin, hsort, ?_⟩
            simp only [List.all_eq_true, decide_eq_true_eq] at hall
            push_neg at hall
            obtain ⟨p, hp, hp0⟩ := hall
            exact ⟨p, hp, Nat.le_zero.mp hp0⟩
          next hall =>
            split at h
            next =>
              injection h with h1 h2
              exact StepEvent.noConfusion h2
            next =>
              obtain ⟨_, h2⟩ := runNode_event _ _ _ _ _ _ _ _ h
              exact StepEvent.noConfusion h2
        next hsort =>
          obtain ⟨_, h2⟩ := runNode_event _ _ _ _ _ _ _ _ h
          exact StepEvent.noConfusion h2

/-- Inversion of a `skippedNode` outcome: it happens only for a non-entry
node that received no contributions at all while every wait-set producer
had completed at least one visit; the node's own visit counter is
incremented, its `run` is not invoked, and every downstream node absent
from the buffer is seeded with an empty contribution at the back. -/
theorem pipeStep_skipped_inv (g : NHGraph) (maxLoops : Nat) (runParams : Params)
    (inputNodes : List String) (v : Visits) (r : ResultMap) (name : String)
    (binp : BufEntry) (rest : Buffer) (nd : NHNode) (s' : NHState)
    (hnd : alookup g.nodes name = some nd)
    (h : pipeStep g maxLoops runParams inputNodes ⟨v, (name, binp) :: rest, r⟩
      = .next s' (.skippedNode name)) :
    binp.data = []
    ∧ name ∉ inputNodes
    ∧ wait_edges g name ≠ []
    ∧ (∀ p ∈ nodes_to_wait_for g name, 0 < getVisits v p)
    ∧ s' = ⟨aset v name (getVisits v name + 1),
        ((out_edges g name).map (·.dst)).foldl
          (fun b dn => if (alookup b dn).isSome then b
                       else b ++ [(dn, ⟨[], runParams⟩)]) rest,
        r⟩ := by
  simp only [pipeStep, hnd] at h
  split at h
  next hv => exact StepOut.noConfusion h
  next hv =>
    split at h
    next hin =>
      obtain ⟨_, h2⟩ := runNode_event _ _ _ _ _ _ _ _ h
      exact StepEvent.noConfusion h2
    next hin =>
      split at h
      next => exact StepOut.noConfusion h
      next hwe =>
        split at h
        next hsort =>
          split at h
          next hall =>
            injection h with h1 h2
            exact StepEvent.noConfusion h2
          next hall =>
            split at h
            next hrecv =>
              injection h with h1 h2
              have hdata : binp.data = [] := by
                have := List.isEmpty_iff.mp hrecv
                simpa using this
              have hall' : ∀ p ∈ nodes_to_wait_for g name, 0 < getVisits v p := by
                have := not_not.mp hall
                simp only [List.all_eq_true, decide_eq_true_eq] at this
                exact this
              refine ⟨hdata, by simpa using hin, ?_, hall', h1.symm⟩
              intro hnil
              simp [hnil] at hwe
            next hrecv =>
              obtain ⟨_, h2⟩ := runNode_event _ _ _ _ _ _ _ _ h
              exact StepEvent.noConfusion h2
        next hsort =>
          obtain ⟨_, h2⟩ := runNode_event _ _ _ _ _ _ _ _ h
          exact StepEvent.noConfusion h2

/-- Forward evaluation of the re-enqueue branch: a non-entry node popped
with inputs missing while some wait-set producer is unvisited is put back
at the end of the buffer with its partial entry unchanged. -/
theorem pipeStep_requeue_eval (g : NHGraph) (maxLoops : Nat) (runParams : Params)
    (inputNodes : List String) (v : Visits) (r : ResultMap) (name : String)
    (binp : BufEntry) (rest : Buffer) (nd : NHNode)
    (hnd : alookup g.nodes name = some nd)
    (hml : getVisits v name ≤ maxLoops)
    (hin : name ∉ inputNodes)
    (hwe : wait_edges g name ≠ [])
    (hsort : sortStrs (inputs_to_wait_for g name) ≠ sortStrs (binp.data.map (·.1)))
    (hall : ∃ p ∈ nodes_to_wait_for g name, getVisits v p = 0) :
    pipeStep g maxLoops runParams inputNodes ⟨v, (name, binp) :: rest, r⟩
      = .next ⟨v, aset rest name binp, r⟩ (.requeued name) := by
  simp only [pipeStep, hnd]
  rw [if_neg (Nat.not_lt.mpr hml)]
  rw [if_neg (show ¬ (inputNodes.contains name = true) by simpa using hin)]
  rw [if_neg (show ¬ ((wait_edges g name).isEmpty = true) by
    simpa [List.isEmpty_iff] using hwe)]
  rw [if_pos hsort]
  rw [if_pos (show ¬ (((nodes_to_wait_for g name).all
      (fun p => getVisits v p > 0)) = true) by
    simp only [List.all_eq_true, decide_eq_true_eq]
    push_neg
    obtain ⟨p, hp, hp0⟩ := hall
    exact ⟨p, hp, by omega⟩)]

/-- Length is preserved by `insertStr`. -/
theorem insertStr_length (x : String) (l : List String) :
    (insertStr x l).length = l.length + 1 := by
  induction l with
  | nil => rfl
  | cons y rest ih =>
    by_cases hy : pyStrLt y x
    · simp [insertStr, hy, ih]
    · simp [insertStr, hy]

/-- Length is preserved by `sortStrs`. -/
theorem sortStrs_length (l : List String) : (sortStrs l).length = l.length := by
  induction l with
  | nil => rfl
  | cons x rest ih => simp [sortStrs, insertStr_length, ih]

/-- Forward evaluation of the skip branch: a non-entry node popped with no
contributions at all, every wait-set producer visited, is skipped — its
visit counter incremented, its downstream nodes seeded with empty
contributions when absent from the buffer, its `run` not invoked. -/
theorem pipeStep_skip_eval (g : NHGraph) (maxLoops : Nat) (runParams : Params)
    (inputNodes : List String) (v : Visits) (r : ResultMap) (name : String)
    (binp : BufEntry) (rest : Buffer) (nd : NHNode)
    (hnd : alookup g.nodes name = some nd)
    (hml : getVisits v name ≤ maxLoops)
    (hin : name ∉ inputNodes)
    (hwe : wait_edges g name ≠ [])
    (hall : ∀ p ∈ nodes_to_wait_for g name, 0 < getVisits v p)
    (hdata : binp.data = []) :
    pipeStep g maxLoops runParams inputNodes ⟨v, (name, binp) :: rest, r⟩
      = .next ⟨aset v name (getVisits v name + 1),
          ((out_edges g name).map (·.dst)).foldl
            (fun b dn => if (alookup b dn).isSome then b
                         else b ++ [(dn, ⟨[], runParams⟩)]) rest,
          r⟩ (.skippedNode name) := by
  have hsort : sortStrs (inputs_to_wait_for g name) ≠ sortStrs (binp.data.map (·.1)) := by
    rw [hdata]
    intro hcontra
    apply hwe
    have hlen := congrArg List.length hcontra
    rw [sortStrs_length, sortStrs_length] at hlen
    simp only [List.map_nil, List.length_nil] at hlen
    have : (wait_edges g name).length = 0 := by
      simpa [inputs_to_wait_for] using hlen
    exact List.length_eq_zero.mp this
  have hall' : ((nodes_to_wait_for g name).all (fun p => getVisits v p > 0)) = true := by
    simp only [List.all_eq_true, decide_eq_true_eq]
    exact hall
  simp only [pipeStep, hnd]
  rw [if_neg (Nat.not_lt.mpr hml)]
  rw [if_neg (show ¬ (inputNodes.contains name = true) by simpa using hin)]
  rw [if_neg (show ¬ ((wait_edges g name).isEmpty = true) by
    simpa [List.isEmpty_iff] using hwe)]
  rw [if_pos hsort]
  rw [if_neg (not_not_intro hall')]
  rw [if_pos (show ((binp.data.map (·.1)).isEmpty = true) by rw [hdata]; rfl)]

/-- Forward evaluation of the proceed-with-`None` branch: a non-entry node
popped with inputs missing but at least one contribution, every wait-set
producer visited, is run with its partial data extended by an explicit
`None` entry for each label the removal loop kept. -/
theorem pipeStep_fill_eval (g : NHGraph) (maxLoops : Nat) (runParams : Params)
    (inputNodes : List String) (v : Visits) (r : ResultMap) (name : String)
    (binp : BufEntry) (rest : Buffer) (nd : NHNode)
    (hnd : alookup g.nodes name = some nd)
    (hml : getVisits v name ≤ maxLoops)
    (hin : name ∉ inputNodes)
    (hwe : wait_edges g name ≠ [])
    (hsort : sortStrs (inputs_to_wait_for g name) ≠ sortStrs (binp.data.map (·.1)))
    (hall : ∀ p ∈ nodes_to_wait_for g name, 0 < getVisits v p)
    (hdata : binp.data ≠ []) :
    pipeStep g maxLoops runParams inputNodes ⟨v, (name, binp) :: rest, r⟩
      = runNode g runParams name nd
          { binp with
            data := binp.data ++ List.map (fun l => (l, (none : Option Int)))
              (popLoop (inputs_to_wait_for g name).length 0
                (inputs_to_wait_for g name) (binp.data.map (·.1))) }
          v rest r := by
  have hall' : ((nodes_to_wait_for g name).all (fun p => getVisits v p > 0)) = true := by
    simp only [List.all_eq_true, decide_eq_true_eq]
    exact hall
  simp only [pipeStep, hnd]
  rw [if_neg (Nat.not_lt.mpr hml)]
  rw [if_neg (show ¬ (inputNodes.contains name = true) by simpa using hin)]
  rw [if_neg (show ¬ ((wait_edges g name).isEmpty = true) by
    simpa [List.isEmpty_iff] using hwe)]
  rw [if_pos hsort]
  rw [if_neg (not_not_intro hall')]
  rw [if_neg (show ¬ ((binp.data.map (·.1)).isEmpty = true) by
    simpa [List.isEmpty_iff] using hdata)]

end NewHaystack

namespace NewHaystack

open PipeDefs

/-- C2: each time a node is executed or skipped by `Pipeline.run` its visit
counter is incremented, and the run aborts with the distinct
loop-bound-exceeded error naming the offending node exactly when that
counter exceeds `max_loops_allowed`: the error is never raised while the
counter is at or below the bound (popping the node aborts if and only if
its counter already exceeds the bound), and the node is never processed
again after the counter first exceeds it (a `ran` or `skipped` step implies
the counter was still at or below the bound). -/
theorem C2_visit_counter_and_loop_bound
    (g : NHGraph) (maxLoops : Nat) (runParams : Params) (inputNodes : List String)
    (v : Visits) (r : ResultMap) (name : String) (binp : BufEntry) (rest : Buffer)
    (hnode : (alookup g.nodes name).isSome) :
    (pipeStep g maxLoops runParams inputNodes ⟨v, (name, binp) :: rest, r⟩
        = .failed (.maxLoops name) v ↔ maxLoops < getVisits v name)
    ∧ (∀ s' d, pipeStep g maxLoops runParams inputNodes ⟨v, (name, binp) :: rest, r⟩
        = .next s' (.ran name d) →
        s'.visits = aset v name (getVisits v name + 1) ∧ getVisits v name ≤ maxLoops)
    ∧ (∀ s', pipeStep g maxLoops runParams inputNodes ⟨v, (name, binp) :: rest, r⟩
        = .next s' (.skippedNode name) →
        s'.visits = aset v name (getVisits v name + 1) ∧ getVisits v name ≤ maxLoops)
    ∧ (∀ s', pipeStep g maxLoops runParams inputNodes ⟨v, (name, binp) :: rest, r⟩
        = .next s' (.requeued name) → s'.visits = v) := by
  obtain ⟨nd, hnd⟩ := Option.isSome_iff_exists.mp hnode
  obtain ⟨out, hout, hcases⟩ :=
    pipeStep_enum g maxLoops runParams inputNodes v r name binp rest nd hnd
  rw [hout]
  rcases hcases with ⟨hml, rfl⟩ | ⟨hle, hcase⟩
  · refine ⟨⟨fun _ => hml, fun _ => rfl⟩, ?_, ?_, ?_⟩
    · intro s' d h; exact StepOut.noConfusion h
    · intro s' h; exact StepOut.noConfusion h
    · intro s' h; exact StepOut.noConfusion h
  · rcases hcase with rfl | rfl | ⟨buf', rfl⟩ | ⟨d, buf', res', rfl⟩
    · refine ⟨⟨?_, ?_⟩, ?_, ?_, ?_⟩
      · intro h; injection h with h1 h2; exact NHErr.noConfusion h1
      · intro h; exact absurd h (Nat.not_lt.mpr hle)
      · intro s' d h; exact StepOut.noConfusion h
      · intro s' h; exact StepOut.noConfusion h
      · intro s' h; exact StepOut.noConfusion h
    · refine ⟨⟨?_, ?_⟩, ?_, ?_, ?_⟩
      · intro h; exact StepOut.noConfusion h
      · intro h; exact absurd h (Nat.not_lt.mpr hle)
      · intro s' d h; injection h with h1 h2; exact StepEvent.noConfusion h2
      · intro s' h; injection h with h1 h2; exact StepEvent.noConfusion h2
      · intro s' h; injection h with h1 h2; subst h1; rfl
    · refine ⟨⟨?_, ?_⟩, ?_, ?_, ?_⟩
      · intro h; exact StepOut.noConfusion h
      · intro h; exact absurd h (Nat.not_lt.mpr hle)
      · intro s' d h; injection h with h1 h2; exact StepEvent.noConfusion h2
      · intro s' h; injection h with h1 h2; subst h1; exact ⟨rfl, hle⟩
      · intro s' h; injection h with h1 h2; exact StepEvent.noConfusion h2
    · refine ⟨⟨?_, ?_⟩, ?_, ?_, ?_⟩
      · intro h; exact StepOut.noConfusion h
      · intro h; exact absurd h (Nat.not_lt.mpr hle)
      · intro s' d' h; injection h with h1 h2; subst h1; exact ⟨rfl, hle⟩
      · intro s' h; injection h with h1 h2; exact StepEvent.noConfusion h2
      · intro s' h; injection h with h1 h2; exact StepEvent.noConfusion h2

end NewHaystack

namespace PipeDefs

theorem alookup_append_left {α : Type} (l1 l2 : List (String × α)) (k : String)
    (v : α) (h : alookup l1 k = some v) : alookup (l1 ++ l2) k = some v := by
  induction l1 with
  | nil => simp [alookup] at h
  | cons hd tl ih =>
    rcases hd with ⟨k0, v0⟩
    by_cases hk : k0 = k
    · simp [alookup, hk] at h ⊢
      exact h
    · simp [alookup, hk] at h ⊢
      exact ih h

theorem alookup_append_right {α : Type} (l1 l2 : List (String × α)) (k : String)
    (h : alookup l1 k = none) : alookup (l1 ++ l2) k = alookup l2 k := by
  induction l1 with
  | nil => simp
  | cons hd tl ih =>
    rcases hd with ⟨k0, v0⟩
    by_cases hk : k0 = k
    · simp [alookup, hk] at h
    · simp [alookup, hk] at h ⊢
      exact ih h

end PipeDefs

namespace NewHaystack

open PipeDefs

/-- The in-place removal loop never drops an element that is not in
`received`: every genuinely missing label survives to the result. -/
theorem popLoop_mem (fuel : Nat) :
    ∀ (i : Nat) (lst received : List String) (x : String),
      x ∈ lst → x ∉ received → x ∈ popLoop fuel i lst received := by
  induction fuel with
  | zero => intro i lst received x hx _; simpa [popLoop] using hx
  | succ fuel ih =>
    intro i lst received x hx hr
    by_cases hi : i < lst.length
    · simp only [popLoop, dif_pos hi]
      by_cases hc : received.contains (lst.get ⟨i, hi⟩)
      · simp only [hc, if_true]
        apply ih
        · have hne : x ≠ lst.get ⟨i, hi⟩ := by
            intro hceq
            apply hr
            have hmem : lst.get ⟨i, hi⟩ ∈ received := by simpa using hc
            simpa [hceq] using hmem
          exact List.mem_erase_of_ne hne |>.mpr hx
        · exact hr
      · simp only [hc, if_false]
        exact ih (i + 1) lst received x hx hr
    · simpa [popLoop, dif_neg hi] using hx

/-- Entries already in the buffer survive the downstream-seeding fold of the
skip branch untouched. -/
theorem seedFold_preserve (params : Params) (dns : List String) :
    ∀ (b0 : Buffer) (k : String) (e : BufEntry), alookup b0 k = some e →
      alookup (dns.foldl (fun b d => if (alookup b d).isSome then b
        else b ++ [(d, ⟨[], params⟩)]) b0) k = some e := by
  induction dns with
  | nil => intro b0 k e h; simpa using h
  | cons d rest ih =>
    intro b0 k e h
    simp only [List.foldl_cons]
    apply ih
    by_cases hd : (alookup b0 d).isSome
    · simpa [hd] using h
    · simp only [hd, if_false]
      exact alookup_append_left _ _ _ _ h

/-- After the downstream-seeding fold, every listed node has a buffer entry:
its previous entry when it already had one, a fresh empty contribution
(empty data, the run-call parameters) otherwise. -/
theorem seedFold_lookup (params : Params) (dns : List String) :
    ∀ (b0 : Buffer) (dn : String), dn ∈ dns →
      ∃ e, alookup (dns.foldl (fun b d => if (alookup b d).isSome then b
              else b ++ [(d, ⟨[], params⟩)]) b0) dn = some e
        ∧ (alookup b0 dn = some e
          ∨ (alookup b0 dn = none ∧ e = ⟨[], params⟩)) := by
  induction dns with
  | nil => intro b0 dn hdn; cases hdn
  | cons d rest ih =>
    intro b0 dn hdn
    simp only [List.foldl_cons]
    by_cases hmem : dn ∈ rest
    · obtain ⟨e, he, hdis⟩ := ih _ dn hmem
      refine ⟨e, he, ?_⟩
      rcases hdis with hsome | ⟨hnone, he'⟩
      · -- entry present after the first seeding step
        cases hb0 : alookup b0 dn with
        | some e0 =>
          left
          have : alookup (if (alookup b0 d).isSome then b0
              else b0 ++ [(d, ⟨[], params⟩)]) dn = some e0 := by
            by_cases hd : (alookup b0 d).isSome
            · simpa [hd] using hb0
            · simp only [hd, if_false]
              exact alookup_append_left _ _ _ _ hb0
          rw [this] at hsome
          injection hsome with hee
          rw [← hee]
        | none =>
          right
          refine ⟨rfl, ?_⟩
          by_cases hd : (alookup b0 d).isSome
          · rw [if_pos hd] at hsome
            rw [hb0] at hsome
            exact Option.noConfusion hsome
          · rw [if_neg hd] at hsome
            rw [alookup_append_right _ _ _ hb0] at hsome
            by_cases hdd : d = dn
            · simp [alookup, hdd] at hsome
              try exact hsome.symm
            · simp [alookup, hdd] at hsome
      · -- entry was still absent after the first step, freshly seeded deeper
        right
        refine ⟨?_, he'⟩
        by_cases hd : (alookup b0 d).isSome
        · rw [if_pos hd] at hnone
          exact hnone
        · rw [if_neg hd] at hnone
          cases hb0 : alookup b0 dn with
          | some e0 =>
            have := alookup_append_left b0 [(d, ⟨[], params⟩)] dn e0 hb0
            rw [this] at hnone
            exact Option.noConfusion hnone
          | none => rfl
    · have hd : dn = d := by
        rcases List.mem_cons.mp hdn with h | h
        · exact h
        · exact absurd h hmem
      subst hd
      by_cases hb0 : (alookup b0 dn).isSome
      · obtain ⟨e0, he0⟩ := Option.isSome_iff_exists.mp hb0
        refine ⟨e0, ?_, Or.inl he0⟩
        apply seedFold_preserve
        simpa [hb0] using he0
      · refine ⟨⟨[], params⟩, ?_, Or.inr ⟨Option.not_isSome_iff_eq_none.mp hb0, rfl⟩⟩
        apply seedFold_preserve
        rw [if_neg hb0]
        rw [alookup_append_right _ _ _ (Option.not_isSome_iff_eq_none.mp hb0)]
        simp [alookup]

end NewHaystack

namespace NewHaystack

open PipeDefs

/-- C3 (amended): for a non-entry node popped with some expected inputs
missing, if at least one wait-set producer has not completed a visit the
node is re-enqueued at the back with its partial entry unchanged; if every
wait-set producer has completed at least one visit AND the node received at
least one contribution, it proceeds: its `run` is invoked with the partial
data extended by an explicit `None` entry for every expected-but-missing
edge label.  (When it received no contribution at all it is skipped
instead of proceeding — the correction to the claim; see the
counterexample.) -/
theorem C3_missing_input_step (g : NHGraph) (maxLoops : Nat) (runParams : Params)
    (inputNodes : List String) (v : Visits) (r : ResultMap) (name : String)
    (binp : BufEntry) (rest : Buffer) (nd : NHNode)
    (hnd : alookup g.nodes name = some nd)
    (hml : getVisits v name ≤ maxLoops)
    (hin : name ∉ inputNodes)
    (hwe : wait_edges g name ≠ [])
    (hsort : sortStrs (inputs_to_wait_for g name) ≠ sortStrs (binp.data.map (·.1))) :
    ((∃ p ∈ nodes_to_wait_for g name, getVisits v p = 0) →
      pipeStep g maxLoops runParams inputNodes ⟨v, (name, binp) :: rest, r⟩
        = .next ⟨v, aset rest name binp, r⟩ (.requeued name))
    ∧ ((∀ p ∈ nodes_to_wait_for g name, 0 < getVisits v p) → binp.data ≠ [] →
        ∃ s' d, pipeStep g maxLoops runParams inputNodes ⟨v, (name, binp) :: rest, r⟩
            = .next s' (.ran name d)
          ∧ d = binp.data ++ List.map (fun l => (l, (none : Option Int)))
              (popLoop (inputs_to_wait_for g name).length 0
                (inputs_to_wait_for g name) (binp.data.map (·.1)))
          ∧ ∀ l ∈ inputs_to_wait_for g name, l ∉ binp.data.map (·.1) →
              (l, (none : Option Int)) ∈ d) := by
  constructor
  · intro hall
    exact pipeStep_requeue_eval g maxLoops runParams inputNodes v r name binp rest nd
      hnd hml hin hwe hsort hall
  · intro hall hdata
    have heval := pipeStep_fill_eval g maxLoops runParams inputNodes v r name binp rest nd
      hnd hml hin hwe hsort hall hdata
    obtain ⟨b1, r1, hrun⟩ := runNode_shape g runParams name nd
      { binp with
        data := binp.data ++ List.map (fun l => (l, (none : Option Int)))
          (popLoop (inputs_to_wait_for g name).length 0
            (inputs_to_wait_for g name) (binp.data.map (·.1))) } v rest r
    refine ⟨⟨aset v name (getVisits v name + 1), b1, r1⟩, _, ?_, rfl, ?_⟩
    · rw [heval, hrun]
    · intro l hl hlrecv
      apply List.mem_append_right
      apply List.mem_map_of_mem
      exact popLoop_mem _ _ _ _ _ hl hlrecv

/-- C3 counterexample: a node (`b` of `pruneFixture`) popped with ALL its
expected inputs missing while its only producer `a` has completed a visit:
the claim as stated demands that `b` proceed with `None` on the missing
edge, but the code skips `b` — its `run` is never invoked. -/
theorem C3_counterexample :
    pipeStep pruneFixture 100 [] ["a"]
        ⟨[("a", 1), ("b", 0)], [("b", ⟨[], []⟩)], []⟩
      = .next ⟨[("a", 1), ("b", 1)], [], []⟩ (.skippedNode "b")
    ∧ ∀ s' d, pipeStep pruneFixture 100 [] ["a"]
        ⟨[("a", 1), ("b", 0)], [("b", ⟨[], []⟩)], []⟩ ≠ .next s' (.ran "b" d) := by
  have h1 : pipeStep pruneFixture 100 [] ["a"]
      ⟨[("a", 1), ("b", 0)], [("b", ⟨[], []⟩)], []⟩
    = .next ⟨[("a", 1), ("b", 1)], [], []⟩ (.skippedNode "b") := by decide
  refine ⟨h1, fun s' d h => ?_⟩
  rw [h1] at h
  injection h with h2 h3
  exact StepEvent.noConfusion h3

/-- C3 witness: the merge node `m` of `mergeFixture`, popped with only edge
`x` delivered while both producers have visited, runs with an explicit
`("y", None)` entry appended. -/
theorem C3_missing_input_step_witness : ∃ s' d,
    pipeStep mergeFixture 100 [] ["a", "c"]
        ⟨[("a", 1), ("c", 1), ("m", 0)], [("m", ⟨[("x", some 1)], []⟩)], []⟩
      = .next s' (.ran "m" d) ∧ ("y", (none : Option Int)) ∈ d := by
  obtain ⟨h1, h2⟩ := C3_missing_input_step mergeFixture 100 [] ["a", "c"]
    [("a", 1), ("c", 1), ("m", 0)] [] "m" ⟨[("x", some 1)], []⟩ []
    { inst := passSpec } rfl (by decide) (by decide) (by decide) (by decide)
  obtain ⟨s', d, heq, hd, hmiss⟩ := h2 (by decide) (by decide)
  exact ⟨s', d, heq, hmiss "y" (by decide) (by decide)⟩

/-- C4: a popped node that received no contributions at all, all of whose
wait-set producers have run, is never invoked: the step is a skip — the
visit counter is incremented, the results are untouched, no `ran` event is
possible, and each downstream node ends up with a buffer entry — its
previous entry unchanged if it had one (an empty contribution adds no data
pairs), a fresh empty contribution (no data, the run parameters) seeded at
the back otherwise — so pruning propagates transitively through skipped
nodes without executing them. -/
theorem C4_skip_without_invocation (g : NHGraph) (maxLoops : Nat) (runParams : Params)
    (inputNodes : List String) (v : Visits) (r : ResultMap) (name : String)
    (binp : BufEntry) (rest : Buffer) (nd : NHNode)
    (hnd : alookup g.nodes name = some nd)
    (hml : getVisits v name ≤ maxLoops)
    (hin : name ∉ inputNodes)
    (hwe : wait_edges g name ≠ [])
    (hall : ∀ p ∈ nodes_to_wait_for g name, 0 < getVisits v p)
    (hdata : binp.data = []) :
    ∃ s', pipeStep g maxLoops runParams inputNodes ⟨v, (name, binp) :: rest, r⟩
        = .next s' (.skippedNode name)
      ∧ (∀ s'' d, pipeStep g maxLoops runParams inputNodes ⟨v, (name, binp) :: rest, r⟩
          ≠ .next s'' (.ran name d))
      ∧ s'.visits = aset v name (getVisits v name + 1)
      ∧ s'.results = r
      ∧ ∀ dn ∈ (out_edges g name).map (·.dst),
          ∃ e, alookup s'.buffer dn = some e
            ∧ (alookup rest dn = some e
              ∨ (alookup rest dn = none ∧ e = ⟨[], runParams⟩)) := by
  have heval := pipeStep_skip_eval g maxLoops runParams inputNodes v r name binp rest nd
    hnd hml hin hwe hall hdata
  refine ⟨_, heval, ?_, rfl, rfl, ?_⟩
  · intro s'' d h
    rw [heval] at h
    injection h with h1 h2
    exact StepEvent.noConfusion h2
  · intro dn hdn
    exact seedFold_lookup runParams _ rest dn hdn

/-- C4 witness: node `b` of `pruneFixture` with an empty buffer entry and a
visited producer is skipped without being run. -/
theorem C4_skip_without_invocation_witness : ∃ s',
    pipeStep pruneFixture 100 [] ["a"]
        ⟨[("a", 1), ("b", 0)], [("b", ⟨[], []⟩)], []⟩
      = .next s' (.skippedNode "b")
    ∧ s'.visits = aset [("a", 1), ("b", 0)] "b" (getVisits [("a", 1), ("b", 0)] "b" + 1) := by
  obtain ⟨s', heq, _, hvis, _, _⟩ := C4_skip_without_invocation pruneFixture 100 [] ["a"]
    [("a", 1), ("b", 0)] [] "b" ⟨[], []⟩ [] { inst := passSpec } rfl
    (by decide) (by decide) (by decide) (by decide) rfl
  exact ⟨s', heq, hvis⟩

/-- C10: a skip increments the very same per-node counter that both the
readiness check and the loop circuit breaker read: a skipped step bumps the
node's counter by one (other counters untouched); a re-enqueue can only
happen while some wait-set producer still has counter zero — so a producer
that was merely skipped (counter already positive) never blocks its
consumers; and the loop-bound abort fires exactly when that counter
exceeds `max_loops_allowed`, regardless of whether the increments came
from runs or skips. -/
theorem C10_skips_count_as_visits (g : NHGraph) (maxLoops : Nat) (runParams : Params)
    (inputNodes : List String) (v : Visits) (r : ResultMap) (name : String)
    (binp : BufEntry) (rest : Buffer) (nd : NHNode)
    (hnd : alookup g.nodes name = some nd) :
    (∀ s', pipeStep g maxLoops runParams inputNodes ⟨v, (name, binp) :: rest, r⟩
        = .next s' (.skippedNode name) →
        getVisits s'.visits name = getVisits v name + 1
        ∧ ∀ p, p ≠ name → getVisits s'.visits p = getVisits v p)
    ∧ (∀ s', pipeStep g maxLoops runParams inputNodes ⟨v, (name, binp) :: rest, r⟩
        = .next s' (.requeued name) →
        ∃ p ∈ nodes_to_wait_for g name, getVisits v p = 0)
    ∧ (pipeStep g maxLoops runParams inputNodes ⟨v, (name, binp) :: rest, r⟩
        = .failed (.maxLoops name) v ↔ maxLoops < getVisits v name) := by
  refine ⟨?_, ?_, ?_⟩
  · intro s' h
    obtain ⟨_, _, _, _, hs⟩ := pipeStep_skipped_inv g maxLoops runParams inputNodes
      v r name binp rest nd s' hnd h
    subst hs
    exact ⟨getVisits_aset v name _, fun p hp => getVisits_aset_ne v name p _ hp⟩
  · intro s' h
    obtain ⟨_, _, _, hex⟩ := pipeStep_requeued_inv g maxLoops runParams inputNodes
      v r name binp rest nd s' hnd h
    exact hex
  · obtain ⟨out, hout, hcases⟩ :=
      pipeStep_enum g maxLoops runParams inputNodes v r name binp rest nd hnd
    rw [hout]
    rcases hcases with ⟨hml, rfl⟩ | ⟨hle, hcase⟩
    · exact ⟨fun _ => hml, fun _ => rfl⟩
    · rcases hcase with rfl | rfl | ⟨buf', rfl⟩ | ⟨d, buf', res', rfl⟩
      · constructor
        · intro h
          injection h with h1 h2
          exact NHErr.noConfusion h1
        · intro h; exact absurd h (Nat.not_lt.mpr hle)
      · exact ⟨fun h => StepOut.noConfusion h, fun h => absurd h (Nat.not_lt.mpr hle)⟩
      · exact ⟨fun h => StepOut.noConfusion h, fun h => absurd h (Nat.not_lt.mpr hle)⟩
      · exact ⟨fun h => StepOut.noConfusion h, fun h => absurd h (Nat.not_lt.mpr hle)⟩

/-- C10 witness: skipping node `b` of `pruneFixture` raises its counter
from 0 to 1. -/
theorem C10_skips_count_as_visits_witness :
    getVisits (NHState.mk [("a", 1), ("b", 1)] [] []).visits "b"
      = getVisits [("a", 1), ("b", 0)] "b" + 1 := by
  obtain ⟨ha, _, _⟩ := C10_skips_count_as_visits pruneFixture 100 [] ["a"]
    [("a", 1), ("b", 0)] [] "b" ⟨[], []⟩ [] { inst := passSpec } rfl
  exact (ha ⟨[("a", 1), ("b", 1)], [], []⟩ (by decide)).1

/-- C2 witness: popping node `b` of `pruneFixture` with its counter already
above `max_loops_allowed = 100` aborts with the loop-bound error naming
`b`. -/
theorem C2_visit_counter_and_loop_bound_witness :
    pipeStep pruneFixture 100 [] ["a"]
        ⟨[("a", 1), ("b", 101)], [("b", ⟨[], []⟩)], []⟩
      = .failed (.maxLoops "b") [("a", 1), ("b", 101)] :=
  ((C2_visit_counter_and_loop_bound pruneFixture 100 [] ["a"]
    [("a", 1), ("b", 101)] [] "b" ⟨[], []⟩ [] (by rfl)).1).mpr (by decide)

end NewHaystack

namespace NewHaystack

open PipeDefs

/-- C5 (amended): `connect` processes the reference list pair by adjacent
pair, but a pair whose same-label edge between the same two nodes already
exists makes the WHOLE call return immediately (line 198 is `return`, not
`continue`): the graph is returned as built so far and the remaining pairs
of the same call are not processed.  Hence repeating a previous
`connect` call is a no-op, but extending it with new trailing pairs does
NOT create the new edges. -/
theorem C5_duplicate_edge_returns (g : NHGraph) (a b : String) (rest : List String)
    (nd ndDown : NHNode) (edge : String)
    (hnodot : hasDot a = false)
    (hup : alookup g.nodes a = some nd)
    (hout : nd.inst.outputs = [edge])
    (hdown : alookup g.nodes (pySplitHead b) = some ndDown)
    (hdup : g.edges.any (fun e =>
        e.src == a && e.dst == pySplitHead b && e.label == edge) = true) :
    connect g (a :: b :: rest) = .ok g := by
  have hpair : connectPair g a b = .ok (.stop g) := by
    simp [connectPair, hnodot, hup, hdown, hout, hdup]
  unfold connect connect_pairs
  rw [hpair]

/-- The graph of `connFixture` after `connect(["a", "b"])`: the single edge
`a --o1--> b`. -/
def connFixtureAB : NHGraph :=
  { connFixture with edges := [⟨"a", "b", "o1"⟩] }

/-- C5 witness: on `connFixtureAB` (where `a --o1--> b` exists), the call
`connect(["a", "b", "c"])` returns the graph unchanged — `b --o2--> c` is
not created. -/
theorem C5_duplicate_edge_returns_witness :
    connect connFixtureAB ["a", "b", "c"] = .ok connFixtureAB :=
  C5_duplicate_edge_returns connFixtureAB "a" "b" ["c"]
    { inst := connSpec ["i"] ["o1"] } { inst := connSpec ["o1"] ["o2"] } "o1"
    rfl rfl rfl rfl (by decide)

/-- C5 counterexample: `connect(["a", "b", "c"])` on the empty fixture
creates both edges, and `connect(["a", "b"])` creates the first one; but
repeating the extended call after the partial one stops at the existing
`a --o1--> b` edge and never creates `b --o2--> c` — contradicting the
claim that the remaining pairs of the call are still created. -/
theorem C5_counterexample :
    (connect connFixture ["a", "b", "c"]).map (fun g => g.edges)
      = .ok [⟨"a", "b", "o1"⟩, ⟨"b", "c", "o2"⟩]
    ∧ (connect connFixture ["a", "b"]).map (fun g => g.edges)
      = .ok [⟨"a", "b", "o1"⟩]
    ∧ (connect connFixtureAB ["a", "b", "c"]).map (fun g => g.edges)
      = .ok [⟨"a", "b", "o1"⟩] :=
  ⟨rfl, rfl, rfl⟩

/-- C6: the scheduler always processes the front (earliest-inserted) buffer
entry — any `next` outcome's event names the popped head node; a node that
is not ready is re-enqueued at the back of the buffer with its entry
unchanged; and on the two-branch fixture (branches of lengths 1 and 2
feeding the merge node `m`), under both seeding orders the trace runs `m`
exactly once, strictly after both branches have delivered (in one order
`m` is popped early and re-enqueued; in the other it is popped last), with
both contributions present in its input snapshot. -/
theorem C6_fifo_order_and_merge (g : NHGraph) (maxLoops : Nat) (runParams : Params)
    (inputNodes : List String) (v : Visits) (r : ResultMap) (name : String)
    (binp : BufEntry) (rest : Buffer) (nd : NHNode)
    (hnd : alookup g.nodes name = some nd) :
    (∀ s' ev, pipeStep g maxLoops runParams inputNodes ⟨v, (name, binp) :: rest, r⟩
        = .next s' ev → evName ev = name)
    ∧ (∀ s', pipeStep g maxLoops runParams inputNodes ⟨v, (name, binp) :: rest, r⟩
        = .next s' (.requeued name) → alookup rest name = none →
        s'.buffer = rest ++ [(name, binp)])
    ∧ runTrace branchFixture 100 [] ["e1", "e2"] 20
        ⟨[("e1", 0), ("e2", 0), ("c", 0), ("m", 0)],
          initBuffer ["e1", "e2"] [("in", some 0)] [], []⟩
      = [.ran "e1" [("in", some 0)], .ran "e2" [("in", some 0)], .requeued "m",
         .ran "c" [("w", some 5)], .ran "m" [("x", some 3), ("y", some 15)]]
    ∧ runTrace branchFixtureRev 100 [] ["e2", "e1"] 20
        ⟨[("e2", 0), ("e1", 0), ("c", 0), ("m", 0)],
          initBuffer ["e2", "e1"] [("in", some 0)] [], []⟩
      = [.ran "e2" [("in", some 0)], .ran "e1" [("in", some 0)],
         .ran "c" [("w", some 5)], .ran "m" [("x", some 3), ("y", some 15)]] := by
  refine ⟨?_, ?_, by decide, by decide⟩
  · intro s' ev h
    obtain ⟨out, hout, hcases⟩ :=
      pipeStep_enum g maxLoops runParams inputNodes v r name binp rest nd hnd
    rw [hout] at h
    rcases hcases with ⟨_, rfl⟩ | ⟨_, hcase⟩
    · exact StepOut.noConfusion h
    · rcases hcase with rfl | rfl | ⟨buf', rfl⟩ | ⟨d, buf', res', rfl⟩
      · exact StepOut.noConfusion h
      · injection h with h1 h2
        rw [← h2]
        rfl
      · injection h with h1 h2
        rw [← h2]
        rfl
      · injection h with h1 h2
        rw [← h2]
        rfl
  · intro s' h hrest
    obtain ⟨hs, _, _, _⟩ := pipeStep_requeued_inv g maxLoops runParams inputNodes
      v r name binp rest nd s' hnd h
    subst hs
    exact aset_absent rest name binp hrest

/-- C6 witness: the merge node `m`, popped before its long branch has
delivered, is re-enqueued at the back of the (here otherwise empty)
buffer with its partial entry unchanged. -/
theorem C6_fifo_order_and_merge_witness :
    (NHState.mk [("a", 1), ("c", 0), ("m", 0)]
        [("m", (⟨[("x", some 1)], []⟩ : BufEntry))] []).buffer
      = [] ++ [("m", (⟨[("x", some 1)], []⟩ : BufEntry))] := by
  have h : pipeStep mergeFixture 100 [] ["a", "c"]
      ⟨[("a", 1), ("c", 0), ("m", 0)], [("m", ⟨[("x", some 1)], []⟩)], []⟩
    = .next ⟨[("a", 1), ("c", 0), ("m", 0)], [("m", ⟨[("x", some 1)], []⟩)], []⟩
        (.requeued "m") := by decide
  exact (C6_fifo_order_and_merge mergeFixture 100 [] ["a", "c"]
    [("a", 1), ("c", 0), ("m", 0)] [] "m" ⟨[("x", some 1)], []⟩ []
    { inst := passSpec } rfl).2.1 _ h rfl

/-- Any failure outcome of one scheduler step carries the visit counters of
the state it was given (the abort does not change them). -/
theorem pipeStep_failed_inv (g : NHGraph) (maxLoops : Nat) (runParams : Params)
    (inputNodes : List String) (s : NHState) (e : NHErr) (w : Visits)
    (h : pipeStep g maxLoops runParams inputNodes s = .failed e w) :
    w = s.visits := by
  obtain ⟨v, b, r⟩ := s
  cases b with
  | nil => exact StepOut.noConfusion h
  | cons hd rest =>
    obtain ⟨name, binp⟩ := hd
    cases hnd : alookup g.nodes name with
    | none =>
      simp only [pipeStep, hnd] at h
      injection h with h1 h2
      exact h2.symm
    | some nd =>
      obtain ⟨out, hout, hcases⟩ :=
        pipeStep_enum g maxLoops runParams inputNodes v r name binp rest nd hnd
      rw [hout] at h
      rcases hcases with ⟨_, rfl⟩ | ⟨_, hcase⟩
      · injection h with h1 h2
        exact h2.symm
      · rcases hcase with rfl | rfl | ⟨buf', rfl⟩ | ⟨d, buf', res', rfl⟩
        · injection h with h1 h2
          exact h2.symm
        · exact StepOut.noConfusion h
        · exact StepOut.noConfusion h
        · exact StepOut.noConfusion h

/-- One scheduler step never decreases any visit counter. -/
theorem pipeStep_visits_mono (g : NHGraph) (maxLoops : Nat) (runParams : Params)
    (inputNodes : List String) (s s' : NHState) (ev : StepEvent)
    (h : pipeStep g maxLoops runParams inputNodes s = .next s' ev) (n : String) :
    getVisits s.visits n ≤ getVisits s'.visits n := by
  obtain ⟨v, b, r⟩ := s
  cases b with
  | nil => exact StepOut.noConfusion h
  | cons hd rest =>
    obtain ⟨name, binp⟩ := hd
    cases hnd : alookup g.nodes name with
    | none => simp only [pipeStep, hnd] at h; exact StepOut.noConfusion h
    | some nd =>
      obtain ⟨out, hout, hcases⟩ :=
        pipeStep_enum g maxLoops runParams inputNodes v r name binp rest nd hnd
      rw [hout] at h
      have hbump : ∀ m, getVisits v m ≤ getVisits (aset v name (getVisits v name + 1)) m := by
        intro m
        by_cases hm : m = name
        · subst hm
          rw [getVisits_aset]
          omega
        · rw [getVisits_aset_ne v name m _ hm]
      rcases hcases with ⟨_, rfl⟩ | ⟨_, hcase⟩
      · exact StepOut.noConfusion h
      · rcases hcase with rfl | rfl | ⟨buf', rfl⟩ | ⟨d, buf', res', rfl⟩
        · exact StepOut.noConfusion h
        · injection h with h1 h2
          subst h1
          exact Nat.le_refl _
        · injection h with h1 h2
          subst h1
          exact hbump n
        · injection h with h1 h2
          subst h1
          exact hbump n

/-- The whole execution loop never decreases any visit counter. -/
theorem runLoop_visits_mono (g : NHGraph) (maxLoops : Nat) (runParams : Params)
    (inputNodes : List String) :
    ∀ (fuel : Nat) (s : NHState) (n : String),
      getVisits s.visits n
        ≤ getVisits (loopVisits (runLoop g maxLoops runParams inputNodes fuel s)) n := by
  intro fuel
  induction fuel with
  | zero => intro s n; exact Nat.le_refl _
  | succ fuel ih =>
    intro s n
    simp only [runLoop]
    cases hstep : pipeStep g maxLoops runParams inputNodes s with
    | finished r => exact Nat.le_refl _
    | failed e w =>
      rw [pipeStep_failed_inv g maxLoops runParams inputNodes s e w hstep]
      exact Nat.le_refl _
    | next s' ev =>
      exact Nat.le_trans
        (pipeStep_visits_mono g maxLoops runParams inputNodes s s' ev hstep n)
        (ih s' n)

/-- C8 (amended, frame part): a `run` leaves the graph itself — node set,
edges with their labels, node instances and default parameters — and the
loop bound untouched; the only pipeline state it writes are the per-node
visit counters, and those are never decreased — in particular they are NOT
reset at the start of a run, so they carry over into subsequent runs. -/
theorem C8_run_frame_and_visits (p : NHPipeline) (fuel : Nat) (data : DataList)
    (params : Params) :
    (nhRun p fuel data params).2.graph = p.graph
    ∧ (nhRun p fuel data params).2.maxLoopsAllowed = p.maxLoopsAllowed
    ∧ ∀ n, getVisits p.visits n ≤ getVisits (nhRun p fuel data params).2.visits n := by
  have hmono := runLoop_visits_mono p.graph p.maxLoopsAllowed params
    (locate_pipeline_input_nodes p.graph) fuel
    ⟨p.visits, initBuffer (locate_pipeline_input_nodes p.graph) data params, []⟩
  unfold nhRun
  dsimp only
  split
  next r v hl =>
    refine ⟨rfl, rfl, fun n => ?_⟩
    have h2 := hmono n
    rw [hl] at h2
    exact h2
  next e v hl =>
    refine ⟨rfl, rfl, fun n => ?_⟩
    have h2 := hmono n
    rw [hl] at h2
    exact h2
  next st hl =>
    refine ⟨rfl, rfl, fun n => ?_⟩
    have h2 := hmono n
    rw [hl] at h2
    exact h2

/-- C8 counterexample: on a one-node pipeline with `max_loops_allowed = 0`,
the first `run` succeeds and leaves node `a`'s visit counter at 1; the
second `run` on the returned pipeline starts from that counter — it does
NOT start "effectively at zero" — and immediately trips the loop circuit
breaker. -/
theorem C8_counterexample :
    (nhRun singleP 5 [("in", some 1)] []).1 = .ok (.rsingle [("in", some 1)])
    ∧ (nhRun singleP 5 [("in", some 1)] []).2.visits = [("a", 1)]
    ∧ (nhRun (nhRun singleP 5 [("in", some 1)] []).2 5 [("in", some 1)] []).1
        = .err (.maxLoops "a") :=
  ⟨by decide, by decide, by decide⟩

end NewHaystack

namespace PipeDefs

theorem dlookup_append (l1 l2 : List (String × Value)) (k : String) :
    dlookup (l1 ++ l2) k =
      match dlookup l1 k with
      | some v => some v
      | none => dlookup l2 k := by
  induction l1 with
  | nil => simp [dlookup]
  | cons hd tl ih =>
    rcases hd with ⟨k1, v1⟩
    by_cases hk : k1 = k
    · simp [dlookup, hk]
    · simp [dlookup, hk, ih]

theorem dlookup_mergeFixup (first : List (String × Value)) (k : String) :
    ∀ second, dlookup (mergeFixup first second) k =
      match dlookup second k with
      | some sv => some (match dlookup first k with
          | some fv => combineVal fv sv
          | none => sv)
      | none => none := by
  intro second
  induction second with
  | nil => simp [mergeFixup, dlookup]
  | cons hd rest ih =>
    rcases hd with ⟨k2, sv2⟩
    simp only [mergeFixup]
    by_cases hk : k2 = k
    · subst hk
      cases hf : dlookup first k2 <;> simp [dlookup, hf]
    · simp [dlookup, hk, ih]

theorem dlookup_filter_absent (second : List (String × Value)) (k : String) :
    ∀ first, dlookup (first.filter (fun kv => (dlookup second kv.1).isNone)) k
      = if (dlookup second k).isNone then dlookup first k else none := by
  intro first
  induction first with
  | nil => simp [dlookup]
  | cons hd rest ih =>
    rcases hd with ⟨k1, v1⟩
    cases hs2 : (dlookup second k1).isNone with
    | true =>
      by_cases hk : k1 = k
      · subst hk
        simp [List.filter, hs2, dlookup, ih]
      · simp [List.filter, hs2, dlookup, hk, ih]
    | false =>
      by_cases hk : k1 = k
      · subst hk
        simp [List.filter, hs2, dlookup, ih]
      · simp [List.filter, hs2, dlookup, hk, ih]

/-- Key-level law of `merge`: a key held by both dicts gets the
`combineVal` combination of the two values (first argument dominating on
scalars, recursing on dicts, concatenating same-type iterables); a key
held by one side keeps its value. -/
theorem dlookup_merge (first second : List (String × Value)) (k : String) :
    dlookup (merge first second) k =
      match dlookup first k, dlookup second k with
      | some fv, some sv => some (combineVal fv sv)
      | some fv, none => some fv
      | none, some sv => some sv
      | none, none => none := by
  rw [merge]
  rw [dlookup_append]
  rw [dlookup_mergeFixup]
  rw [dlookup_filter_absent]
  cases hf : dlookup first k <;> cases hs : dlookup second k <;> simp [hf, hs]

/-- `merge` with an empty first dict is the identity. -/
theorem merge_nil_left (d : List (String × Value)) : merge [] d = d := by
  rw [merge]
  have h1 : ∀ l, mergeFixup [] l = l := by
    intro l
    induction l with
    | nil => simp [mergeFixup]
    | cons hd rest ih =>
      rcases hd with ⟨k, sv⟩
      simp [mergeFixup, dlookup, ih]
  simp [h1]

end PipeDefs

namespace Haystack

open PipeDefs

theorem connect_go_weights : ∀ (refs : List String) (ws : List Int) (g g' : HGraph),
    (∀ w ∈ ws, w = 1) → connect_go g refs ws = .ok g' →
    ∀ e ∈ g'.edges, e ∈ g.edges ∨ e.weight = 1 := by
  intro refs
  induction refs with
  | nil =>
    intro ws g g' hws h e he
    cases ws <;> simp only [connect_go] at h <;>
      (injection h with h1; subst h1; exact Or.inl he)
  | cons a refs' ih =>
    cases refs' with
    | nil =>
      intro ws g g' hws h e he
      cases ws <;> simp only [connect_go] at h <;>
        (injection h with h1; subst h1; exact Or.inl he)
    | cons b rest =>
      intro ws g g' hws h e he
      cases ws with
      | nil => simp only [connect_go] at h; exact Except.noConfusion h
      | cons w wrest =>
        simp only [connect_go] at h
        split at h
        all_goals
          split at h
          next => exact Except.noConfusion h
          next =>
            split at h
            next => exact Except.noConfusion h
            next =>
              have hw : w = 1 := hws w (List.mem_cons_self w wrest)
              have hws' : ∀ x ∈ wrest, x = 1 :=
                fun x hx => hws x (List.mem_cons_of_mem w hx)
              split at h
              next => exact ih wrest g g' hws' h e he
              next =>
                have hres := ih wrest _ g' hws' h e he
                rcases hres with hin | h1
                · rcases List.mem_append.mp hin with hold | hnew
                  · exact Or.inl hold
                  · right
                    simp only [List.mem_singleton] at hnew
                    rw [hnew]
                    exact hw
                · exact Or.inr h1

end Haystack

namespace Haystack

open PipeDefs

/-- C1 (amended): `Pipeline.run` merges buffered contributions with a
deterministic, weight-ordered deep merge — the buffer is kept sorted by
ascending weight and folded left with `merge`, whose FIRST argument
dominates, so a conflicting scalar key takes the value of the
LOWER-weight contribution (not the higher-weight one as claimed); keys
whose values are both mappings are merged recursively; same-type iterable
values are concatenated (lower-weight elements first); and `connect`
attaches weights per edge, defaulting uniformly to 1 when unspecified. -/
theorem C1_weight_ordered_merge :
    (∀ c1 c2 : Contribution, c1.weight ≤ c2.weight →
      mergeContributions (bufferAdd (bufferAdd [] c1) c2)
        = (merge c1.data c2.data, merge c1.parameters c2.parameters))
    ∧ (∀ first second k, dlookup (merge first second) k =
        match dlookup first k, dlookup second k with
        | some fv, some sv => some (combineVal fv sv)
        | some fv, none => some fv
        | none, some sv => some sv
        | none, none => none)
    ∧ (∀ f s, combineVal (.vdict f) (.vdict s) = .vdict (merge f s))
    ∧ (∀ a b, combineVal (.vlist a) (.vlist b) = .vlist (a ++ b))
    ∧ (∀ a b, combineVal (.vtuple a) (.vtuple b) = .vtuple (a ++ b))
    ∧ (∀ n m, combineVal (.vint n) m = .vint n)
    ∧ (∀ str m, combineVal (.vstr str) m = .vstr str)
    ∧ (∀ g ns g', connect g ns none = .ok g' →
        ∀ e ∈ g'.edges, e ∈ g.edges ∨ e.weight = 1) := by
  refine ⟨?_, ?_, ?_, ?_, ?_, ?_, ?_, ?_⟩
  · intro c1 c2 h
    have hlt : ¬ (c2.weight < c1.weight) := not_lt.mpr h
    simp [mergeContributions, bufferAdd, sortByWeight, insertAsc, hlt, merge_nil_left]
  · exact dlookup_merge
  · intro f s
    simp [combineVal]
  · intro a b
    simp [combineVal]
  · intro a b
    simp [combineVal]
  · intro n m
    cases m <;> simp [combineVal]
  · intro str m
    cases m <;> simp [combineVal]
  · intro g ns g' hc e he
    have hgo : connect_go g ns (List.replicate ns.length 1) = .ok g' := by
      simpa [connect] using hc
    exact connect_go_weights ns _ g g'
      (fun w hw => List.eq_of_mem_replicate hw) hgo e he

/-- C1 counterexample: two contributions carrying the same scalar key with
weights 1 and 2: the merged value is the weight-1 (lower-weight) one,
refuting "higher weight dominating". -/
theorem C1_counterexample :
    (dlookup (mergeContributions (bufferAdd (bufferAdd []
        ⟨[("k", Value.vint 10)], [], 1⟩) ⟨[("k", Value.vint 20)], [], 2⟩)).1 "k"
      = some (Value.vint 10))
    ∧ (dlookup (mergeContributions (bufferAdd (bufferAdd []
        ⟨[("k", Value.vint 10)], [], 1⟩) ⟨[("k", Value.vint 20)], [], 2⟩)).1 "k"
      ≠ some (Value.vint 20)) := by
  have hbuf : bufferAdd (bufferAdd []
      (⟨[("k", Value.vint 10)], [], 1⟩ : Contribution)) ⟨[("k", Value.vint 20)], [], 2⟩
      = [⟨[("k", Value.vint 10)], [], 1⟩, ⟨[("k", Value.vint 20)], [], 2⟩] := by
    norm_num [bufferAdd, sortByWeight, insertAsc]
  have hm : (mergeContributions [(⟨[("k", Value.vint 10)], [], 1⟩ : Contribution),
      ⟨[("k", Value.vint 20)], [], 2⟩]).1
      = merge [("k", Value.vint 10)] [("k", Value.vint 20)] := by
    simp [mergeContributions, merge_nil_left]
  constructor
  · rw [hbuf, hm, dlookup_merge]
    simp [dlookup, combineVal]
  · rw [hbuf, hm, dlookup_merge]
    simp [dlookup, combineVal]

/-- C1 witness: the two-contribution fold at weights 1 ≤ 2 reduces to the
first-dominant `merge` of the lower-weight data onto the higher-weight
data. -/
theorem C1_weight_ordered_merge_witness :
    mergeContributions (bufferAdd (bufferAdd []
        ⟨[("k", Value.vint 10)], [], 1⟩) ⟨[("k", Value.vint 20)], [], 2⟩)
      = (merge [("k", Value.vint 10)] [("k", Value.vint 20)], merge [] []) :=
  C1_weight_ordered_merge.1 ⟨[("k", Value.vint 10)], [], 1⟩
    ⟨[("k", Value.vint 20)], [], 2⟩ (by norm_num)

end Haystack

namespace NewHaystack

open PipeDefs

/-- C9 (amended): when two entities with the same action name are found in
different modules, both are additionally registered under scope-qualified
names (the earlier one under its own `__module__`, the newer one under the
module being searched) and the unqualified name remains registered during
the scan, rebound to the newest entity; but the deletion pass at the end
of `find_actions` removes every unqualified name recorded as a duplicate
while scanning the LAST module — so with the collision in the final
module the unqualified name is already removed after the second
occurrence, while a trailing collision-free module resets the duplicate
list and the unqualified name survives. -/
theorem C9_collision_rules (m1 m2 : String) (e1 e2 : Entity) (n : String)
    (h1 : e1.actionName = n) (h2 : e2.actionName = n)
    (hq1 : e1.module ++ "." ++ n ≠ n)
    (hq2 : m2 ++ "." ++ n ≠ n)
    (hq12 : e1.module ++ "." ++ n ≠ m2 ++ "." ++ n) :
    find_actions [(m1, [e1]), (m2, [e2])]
      = .ok [(e1.module ++ "." ++ n, e1), (m2 ++ "." ++ n, e2)]
    ∧ find_actions [(m1, [e1]), (m2, [e2]), ("m3", [])]
      = .ok [(n, e2), (e1.module ++ "." ++ n, e1), (m2 ++ "." ++ n, e2)] := by
  subst h1
  constructor
  · simp [find_actions, scanEntity, aset, alookup, delAll, h2,
      Ne.symm hq1, Ne.symm hq2, hq1, hq2, hq12, Ne.symm hq12]
  · simp [find_actions, scanEntity, aset, alookup, delAll, h2,
      Ne.symm hq1, Ne.symm hq2, hq1, hq2, hq12, Ne.symm hq12]

/-- C9 counterexample: with exactly two colliding entities (second module
scanned last), the unqualified name `"act"` is already deleted from the
returned registry — the claim's "removed only once a third collision is
detected" is false; moreover two collisions of the same name inside the
final module crash `find_actions` with a `KeyError` on the second
deletion. -/
theorem C9_counterexample :
    find_actions [("m1", [⟨"act", "m1", 1⟩]), ("m2", [⟨"act", "m2", 2⟩])]
      = .ok [("m1" ++ "." ++ "act", ⟨"act", "m1", 1⟩),
             ("m2" ++ "." ++ "act", ⟨"act", "m2", 2⟩)]
    ∧ alookup [("m1" ++ "." ++ "act", (⟨"act", "m1", 1⟩ : Entity)),
             ("m2" ++ "." ++ "act", ⟨"act", "m2", 2⟩)] "act" = none
    ∧ find_actions [("m1", [⟨"act", "m1", 1⟩]),
        ("m2", [⟨"act", "m2", 2⟩, ⟨"act", "m2", 3⟩])] = .error "act" := by
  refine ⟨rfl, rfl, rfl⟩

/-- C9 witness: the concrete two-collision scan followed by a clean module
keeps the unqualified name bound to the newest entity. -/
theorem C9_collision_rules_witness :
    find_actions [("m1", [⟨"act", "m1", 1⟩]), ("m2", [⟨"act", "m2", 2⟩]), ("m3", [])]
      = .ok [("act", ⟨"act", "m2", 2⟩),
             ("m1" ++ "." ++ "act", ⟨"act", "m1", 1⟩),
             ("m2" ++ "." ++ "act", ⟨"act", "m2", 2⟩)] :=
  (C9_collision_rules "m1" "m2" ⟨"act", "m1", 1⟩ ⟨"act", "m2", 2⟩ "act"
    rfl rfl (by decide) (by decide) (by decide)).2

end NewHaystack

namespace Haystack

open PipeDefs

theorem haystackActionAttr_warm (a : HAction) (h : isWarmA a = true) :
    haystackActionAttr a = some (actionName' a) := by
  cases a <;> simp [isWarmA] at h ⊢ <;> rfl

theorem cool_down_go_spec : ∀ (todo : List (String × HNode))
    (reused : List (String × HAction)),
    (∀ x ∈ todo, isWarmA x.2.action = true) →
    cool_down_go reused todo = .ok (coolSpecGo reused todo) := by
  intro todo
  induction todo with
  | nil => intro reused _; rfl
  | cons hd rest ih =>
    intro reused hw
    obtain ⟨name, nd⟩ := hd
    have hwhd : isWarmA nd.action = true := hw (name, nd) (List.mem_cons_self _ _)
    have hattr := haystackActionAttr_warm nd.action hwhd
    have hrest : ∀ x ∈ rest, isWarmA x.2.action = true :=
      fun x hx => hw x (List.mem_cons_of_mem _ hx)
    by_cases hc1 : reused.any (fun kv => actionEq kv.2 nd.action) = true
    all_goals by_cases hc2 : hasInitParams nd.action = true
    all_goals simp [cool_down_go, coolSpecGo, hc1, hc2, hattr, ih _ hrest]

theorem actionEq_inst (a : HAction) (id : Nat) (c : String)
    (i : List (String × Value)) : actionEq a (.inst id c i) = instIdEq a id := by
  cases a <;> rfl

theorem any_actionEq_inst (l : List (String × HAction)) (id : Nat) (c : String)
    (i : List (String × Value)) :
    l.any (fun kv => actionEq kv.2 (.inst id c i)) = l.any (fun r => instIdEq r.2 id) := by
  induction l with
  | nil => rfl
  | cons hd tl ih => simp [List.any_cons, actionEq_inst, ih]

theorem find?_actionEq_inst (l : List (String × HAction)) (id : Nat) (c : String)
    (i : List (String × Value)) :
    l.find? (fun kv => actionEq kv.2 (.inst id c i)) = l.find? (fun r => instIdEq r.2 id) := by
  induction l with
  | nil => rfl
  | cons hd tl ih =>
    cases hp : instIdEq hd.2 id
    · simp only [List.find?_cons, actionEq_inst, hp, ih]
    · simp only [List.find?_cons, actionEq_inst, hp]

theorem any_actionEq_fn (l : List (String × HAction)) (k : String)
    (h : ∀ r ∈ l, hasInitParams r.2 = true) :
    l.any (fun kv => actionEq kv.2 (.fn k)) = false := by
  induction l with
  | nil => rfl
  | cons hd tl ih =>
    have hhd := h hd (List.mem_cons_self _ _)
    have : actionEq hd.2 (.fn k) = false := by
      cases ha : hd.2 <;> simp [hasInitParams, ha] at hhd ⊢ <;> rfl
    simp [List.any_cons, this, ih (fun r hr => h r (List.mem_cons_of_mem _ hr))]

theorem nlookup_append_left {α : Type} (l1 l2 : List (Nat × α)) (k : Nat) (v : α)
    (h : nlookup l1 k = some v) : nlookup (l1 ++ l2) k = some v := by
  induction l1 with
  | nil => simp [nlookup] at h
  | cons hd tl ih =>
    obtain ⟨k0, v0⟩ := hd
    by_cases hk : k0 = k
    · simp [nlookup, hk] at h ⊢; exact h
    · simp [nlookup, hk] at h ⊢; exact ih h

theorem nlookup_append_right {α : Type} (l1 l2 : List (Nat × α)) (k : Nat)
    (h : nlookup l1 k = none) : nlookup (l1 ++ l2) k = nlookup l2 k := by
  induction l1 with
  | nil => rfl
  | cons hd tl ih =>
    obtain ⟨k0, v0⟩ := hd
    by_cases hk : k0 = k
    · simp [nlookup, hk] at h
    · simp [nlookup, hk] at h ⊢; exact ih h

theorem find?_eq_none_of_any_false {α : Type} (l : List α) (p : α → Bool)
    (h : l.any p = false) : l.find? p = none := by
  induction l with
  | nil => rfl
  | cons hd tl ih =>
    rw [List.any_cons, Bool.or_eq_false_iff] at h
    simp [List.find?_cons, h.1, ih h.2]

theorem find?_append_some {α : Type} (l1 l2 : List α) (p : α → Bool) (v : α)
    (h : l1.find? p = some v) : (l1 ++ l2).find? p = some v := by
  induction l1 with
  | nil => simp [List.find?] at h
  | cons hd tl ih =>
    cases hp : p hd
    · simp only [List.cons_append, List.find?_cons, hp] at h ⊢
      exact ih h
    · simp only [List.cons_append, List.find?_cons, hp] at h ⊢
      exact h

theorem find?_append_none {α : Type} (l1 l2 : List α) (p : α → Bool)
    (h : l1.find? p = none) : (l1 ++ l2).find? p = l2.find? p := by
  induction l1 with
  | nil => rfl
  | cons hd tl ih =>
    cases hp : p hd
    · simp only [List.cons_append, List.find?_cons, hp] at h ⊢
      exact ih h
    · simp only [List.find?_cons, hp] at h
      exact Option.noConfusion h

theorem alookup_eq_none_of_not_mem {α : Type} (l : List (String × α)) (k : String)
    (h : k ∉ l.map (·.1)) : alookup l k = none := by
  induction l with
  | nil => rfl
  | cons hd tl ih =>
    obtain ⟨k0, v0⟩ := hd
    simp only [List.map_cons, List.mem_cons, not_or] at h
    simp only [alookup]
    rw [if_neg (fun he => h.1 he.symm)]
    exact ih h.2

theorem warm_up_go_step_fn (avail : Registry) (done : List (String × HNode))
    (ctr : Nat) (name k : String) (p : HParams)
    (init : Option (List (String × Value))) (ii : Option String)
    (rest : List (String × HNode)) (hl : alookup avail k = some (.rfn k)) :
    warm_up_go avail done ctr ((name, ⟨.act k, p, init, ii⟩) :: rest)
      = warm_up_go avail (done ++ [(name, ⟨.fn k, warmParams p, init, ii⟩)]) ctr rest := by
  simp [warm_up_go, hl]

theorem warm_up_go_step_ref (avail : Registry) (done : List (String × HNode))
    (ctr : Nat) (name cls : String) (p : HParams)
    (init : Option (List (String × Value))) (ref : String)
    (rest : List (String × HNode)) (ndw : HNode)
    (hl : alookup avail cls = some (.rcls cls))
    (hdw : alookup done ref = some ndw) :
    warm_up_go avail done ctr ((name, ⟨.act cls, p, init, some ref⟩) :: rest)
      = warm_up_go avail
          (done ++ [(name, ⟨ndw.action, warmParams p, init, some ref⟩)]) ctr rest := by
  have := alookup_append_left done ((name, (⟨.act cls, p, init, some ref⟩ : HNode)) :: rest)
    ref ndw hdw
  simp [warm_up_go, hl, this]

theorem warm_up_go_step_new (avail : Registry) (done : List (String × HNode))
    (ctr : Nat) (name cls : String) (p : HParams) (ip : List (String × Value))
    (rest : List (String × HNode)) (hl : alookup avail cls = some (.rcls cls)) :
    warm_up_go avail done ctr ((name, ⟨.act cls, p, some ip, none⟩) :: rest)
      = warm_up_go avail
          (done ++ [(name, ⟨.inst ctr cls ip, warmParams p, some ip, none⟩)])
          (ctr + 1) rest := by
  simp [warm_up_go, hl]

/-- Main round-trip induction: running `warm_up_go` over the `cool_down`
image of a list of warm, registered, fresh nodes appends exactly the
`warmSpecGo` image of the original nodes, under the invariants tying the
`reused_instances` accumulator of the cool phase to the `seen` map and the
`done` prefix of the warm phase. -/
theorem warm_cool_go (avail : Registry) : ∀ (todo : List (String × HNode))
    (reused : List (String × HAction)) (done : List (String × HNode))
    (seen : List (Nat × (String × HAction))) (ctr : Nat),
    (∀ x ∈ todo, isWarmA x.2.action = true) →
    (∀ x ∈ todo, regOK avail x.2.action = true) →
    (∀ x ∈ todo, x.2.instanceId = none) →
    (done.map (·.1) ++ todo.map (·.1)).Nodup →
    (∀ r ∈ reused, hasInitParams r.2 = true) →
    (∀ id, reused.any (fun r => instIdEq r.2 id) = (nlookup seen id).isSome) →
    (∀ id e, nlookup seen id = some e →
        (∃ c i, reused.find? (fun r => instIdEq r.2 id) = some (e.1, .inst id c i))
        ∧ ∃ ndw, alookup done e.1 = some ndw ∧ ndw.action = e.2) →
    ∃ ctr2, warm_up_go avail done ctr (coolSpecGo reused todo)
        = .ok (done ++ warmSpecGo ctr seen todo, ctr2) := by
  intro todo
  induction todo with
  | nil =>
    intro reused done seen ctr _ _ _ _ _ _ _
    exact ⟨ctr, by simp [coolSpecGo, warmSpecGo, warm_up_go]⟩
  | cons hd rest ih =>
    intro reused done seen ctr hw hreg hfresh hnd hR0 hR4 hR1
    obtain ⟨name, nd⟩ := hd
    have hwrest : ∀ x ∈ rest, isWarmA x.2.action = true :=
      fun x hx => hw x (List.mem_cons_of_mem _ hx)
    have hregrest : ∀ x ∈ rest, regOK avail x.2.action = true :=
      fun x hx => hreg x (List.mem_cons_of_mem _ hx)
    have hfreshrest : ∀ x ∈ rest, x.2.instanceId = none :=
      fun x hx => hfresh x (List.mem_cons_of_mem _ hx)
    have hnamenotdone : name ∉ done.map (·.1) := by
      intro hmem
      exact (List.nodup_append.mp hnd).2.2 hmem (by simp)
    cases hact : nd.action with
    | act s =>
      have := hw (name, nd) (List.mem_cons_self _ _)
      rw [hact] at this
      exact absurd this (by simp [isWarmA])
    | fn k =>
      have hregh := hreg (name, nd) (List.mem_cons_self _ _)
      rw [hact] at hregh
      have hl : alookup avail k = some (.rfn k) := by
        simp only [regOK] at hregh
        cases hlk : alookup avail k with
        | none => rw [hlk] at hregh; simp at hregh
        | some re =>
          cases re with
          | rfn k2 =>
            rw [hlk] at hregh
            simp only [beq_iff_eq] at hregh
            subst hregh
            rfl
          | rcls c => rw [hlk] at hregh; simp at hregh
      have hc1 : reused.any (fun kv => actionEq kv.2 nd.action) = false := by
        rw [hact]; exact any_actionEq_fn _ _ hR0
      have hc1k : reused.any (fun kv => actionEq kv.2 (HAction.fn k)) = false :=
        any_actionEq_fn _ _ hR0
      have hc2 : hasInitParams nd.action = false := by rw [hact]; rfl
      have hchead : coolSpecGo reused ((name, nd) :: rest)
          = (name, ⟨.act k, coolParams nd.parameters, nd.init, nd.instanceId⟩)
            :: coolSpecGo reused rest := by
        simp [coolSpecGo, hc1, hc1k, hc2, hact, actionName', hasInitParams]
      have hnd2 : ((done ++ [(name,
          (⟨.fn k, warmParams (coolParams nd.parameters), nd.init, nd.instanceId⟩ : HNode))]).map (·.1)
            ++ rest.map (·.1)).Nodup := by
        rw [List.map_append, List.append_assoc]
        simpa using hnd
      have hR1n : ∀ id e, nlookup seen id = some e →
          (∃ c i, reused.find? (fun r => instIdEq r.2 id) = some (e.1, .inst id c i))
          ∧ ∃ ndw, alookup (done ++ [(name,
              (⟨.fn k, warmParams (coolParams nd.parameters), nd.init, nd.instanceId⟩ : HNode))]) e.1
                = some ndw ∧ ndw.action = e.2 := by
        intro id e hse
        obtain ⟨hfind, ndw, hdw, hdwa⟩ := hR1 id e hse
        exact ⟨hfind, ndw, alookup_append_left _ _ _ _ hdw, hdwa⟩
      obtain ⟨ctr2, hrec⟩ := ih reused
        (done ++ [(name, ⟨.fn k, warmParams (coolParams nd.parameters), nd.init, nd.instanceId⟩)])
        seen ctr hwrest hregrest hfreshrest hnd2 hR0 hR4 hR1n
      refine ⟨ctr2, ?_⟩
      rw [hchead, warm_up_go_step_fn avail done ctr name k _ _ _ _ hl, hrec]
      simp [warmSpecGo, hact, List.append_assoc]
    | inst id cls ip =>
      have hregh := hreg (name, nd) (List.mem_cons_self _ _)
      rw [hact] at hregh
      have hl : alookup avail cls = some (.rcls cls) := by
        simp only [regOK] at hregh
        cases hlk : alookup avail cls with
        | none => rw [hlk] at hregh; simp at hregh
        | some re =>
          cases re with
          | rfn k2 => rw [hlk] at hregh; simp at hregh
          | rcls c2 =>
            rw [hlk] at hregh
            simp only [beq_iff_eq] at hregh
            subst hregh
            rfl
      by_cases hc : reused.any (fun r => instIdEq r.2 id) = true
      · -- the instance was already recorded: back-reference branch
        have hsome : (nlookup seen id).isSome := by rw [← hR4]; exact hc
        obtain ⟨e, hse⟩ := Option.isSome_iff_exists.mp hsome
        obtain ⟨⟨c, i, hfind⟩, ndw, hdw, hdwa⟩ := hR1 id e hse
        have hfk : firstKeyFor reused (.inst id cls ip) = e.1 := by
          unfold firstKeyFor
          rw [find?_actionEq_inst, hfind]
        have hc1 : reused.any (fun kv => actionEq kv.2 nd.action) = true := by
          rw [hact, any_actionEq_inst]; exact hc
        have hc1k : reused.any (fun kv => actionEq kv.2 (HAction.inst id cls ip)) = true := by
          rw [any_actionEq_inst]; exact hc
        have hchead : coolSpecGo reused ((name, nd) :: rest)
            = (name, ⟨.act cls, coolParams nd.parameters, nd.init, some e.1⟩)
              :: coolSpecGo reused rest := by
          simp [coolSpecGo, hc1, hc1k, hact, actionName', hfk]
        have hnd2 : ((done ++ [(name,
            (⟨ndw.action, warmParams (coolParams nd.parameters), nd.init, some e.1⟩ : HNode))]).map (·.1)
              ++ rest.map (·.1)).Nodup := by
          rw [List.map_append, List.append_assoc]
          simpa using hnd
        have hR1n : ∀ id2 e2, nlookup seen id2 = some e2 →
            (∃ c i, reused.find? (fun r => instIdEq r.2 id2) = some (e2.1, .inst id2 c i))
            ∧ ∃ ndw2, alookup (done ++ [(name,
                (⟨ndw.action, warmParams (coolParams nd.parameters), nd.init, some e.1⟩ : HNode))]) e2.1
                  = some ndw2 ∧ ndw2.action = e2.2 := by
          intro id2 e2 hse2
          obtain ⟨hfind2, ndw2, hdw2, hdwa2⟩ := hR1 id2 e2 hse2
          exact ⟨hfind2, ndw2, alookup_append_left _ _ _ _ hdw2, hdwa2⟩
        obtain ⟨ctr2, hrec⟩ := ih reused
          (done ++ [(name, ⟨ndw.action, warmParams (coolParams nd.parameters), nd.init, some e.1⟩)])
          seen ctr hwrest hregrest hfreshrest hnd2 hR0 hR4 hR1n
        refine ⟨ctr2, ?_⟩
        rw [hchead, warm_up_go_step_ref avail done ctr name cls _ _ e.1 _ ndw hl hdw, hrec]
        simp [warmSpecGo, hact, hse, hdwa, List.append_assoc]
      · -- first occurrence: record in reused, instantiate fresh
        have hcf : reused.any (fun r => instIdEq r.2 id) = false := by
          revert hc; cases reused.any (fun r => instIdEq r.2 id) <;> simp
        have hnone : nlookup seen id = none := by
          have h4 := hR4 id
          rw [hcf] at h4
          cases ho : nlookup seen id
          · rfl
          · rw [ho] at h4; simp at h4
        have hfh : nd.instanceId = none := hfresh (name, nd) (List.mem_cons_self _ _)
        have hc1 : reused.any (fun kv => actionEq kv.2 nd.action) = false := by
          rw [hact, any_actionEq_inst]; exact hcf
        have hc1k : reused.any (fun kv => actionEq kv.2 (HAction.inst id cls ip)) = false := by
          rw [any_actionEq_inst]; exact hcf
        have hc2 : hasInitParams nd.action = true := by rw [hact]; rfl
        have hchead : coolSpecGo reused ((name, nd) :: rest)
            = (name, ⟨.act cls, coolParams nd.parameters, some ip, none⟩)
              :: coolSpecGo (reused ++ [(name, .inst id cls ip)]) rest := by
          simp [coolSpecGo, hc1, hc1k, hc2, hact, actionName', instInit, hfh, hasInitParams]
        have hR0n : ∀ r ∈ reused ++ [(name, HAction.inst id cls ip)],
            hasInitParams r.2 = true := by
          intro r hr
          rcases List.mem_append.mp hr with hr | hr
          · exact hR0 r hr
          · simp at hr; rw [hr]; rfl
        have hR4n : ∀ id2, (reused ++ [(name, HAction.inst id cls ip)]).any
              (fun r => instIdEq r.2 id2)
            = (nlookup (seen ++ [(id, (name, HAction.inst ctr cls ip))]) id2).isSome := by
          intro id2
          rw [List.any_append]
          cases ho : nlookup seen id2 with
          | some e2 =>
            rw [nlookup_append_left _ _ _ _ ho]
            have h4 := hR4 id2
            rw [ho] at h4
            simp at h4 ⊢
            exact Or.inl h4
          | none =>
            rw [nlookup_append_right _ _ _ ho]
            have h4 := hR4 id2
            rw [ho] at h4
            simp only [Option.isSome_none] at h4
            rw [h4, Bool.false_or]
            by_cases hid : id = id2
            · subst hid
              simp [instIdEq, nlookup]
            · simp [instIdEq, nlookup, hid]
        have hR1n : ∀ id2 e2,
            nlookup (seen ++ [(id, (name, HAction.inst ctr cls ip))]) id2 = some e2 →
            (∃ c i, (reused ++ [(name, HAction.inst id cls ip)]).find?
                (fun r => instIdEq r.2 id2) = some (e2.1, .inst id2 c i))
            ∧ ∃ ndw2, alookup (done ++ [(name,
                (⟨.inst ctr cls ip, warmParams (coolParams nd.parameters), some ip, none⟩ : HNode))]) e2.1
                  = some ndw2 ∧ ndw2.action = e2.2 := by
          intro id2 e2 hse2
          cases ho : nlookup seen id2 with
          | some e0 =>
            rw [nlookup_append_left _ _ _ _ ho] at hse2
            injection hse2 with hse2
            rw [← hse2]
            obtain ⟨⟨c, i, hfind⟩, ndw2, hdw2, hdwa2⟩ := hR1 id2 e0 ho
            exact ⟨⟨c, i, find?_append_some _ _ _ _ hfind⟩,
              ndw2, alookup_append_left _ _ _ _ hdw2, hdwa2⟩
          | none =>
            rw [nlookup_append_right _ _ _ ho] at hse2
            simp only [nlookup] at hse2
            by_cases hid : id = id2
            · subst hid
              rw [if_pos rfl] at hse2
              injection hse2 with hse2
              subst hse2
              constructor
              · refine ⟨cls, ip, ?_⟩
                have hfnone : reused.find? (fun r => instIdEq r.2 id) = none :=
                  find?_eq_none_of_any_false _ _ hcf
                rw [find?_append_none _ _ _ hfnone]
                simp [List.find?_cons, instIdEq]
              · refine ⟨⟨.inst ctr cls ip, warmParams (coolParams nd.parameters),
                  some ip, none⟩, ?_, rfl⟩
                rw [alookup_append_right _ _ _
                  (alookup_eq_none_of_not_mem _ _ hnamenotdone)]
                simp [alookup]
            · rw [if_neg hid] at hse2
              exact Option.noConfusion hse2
        have hnd2 : ((done ++ [(name,
            (⟨.inst ctr cls ip, warmParams (coolParams nd.parameters), some ip, none⟩ : HNode))]).map (·.1)
              ++ rest.map (·.1)).Nodup := by
          rw [List.map_append, List.append_assoc]
          simpa using hnd
        obtain ⟨ctr2, hrec⟩ := ih (reused ++ [(name, .inst id cls ip)])
          (done ++ [(name, ⟨.inst ctr cls ip, warmParams (coolParams nd.parameters), some ip, none⟩)])
          (seen ++ [(id, (name, HAction.inst ctr cls ip))]) (ctr + 1)
          hwrest hregrest hfreshrest hnd2 hR0n hR4n hR1n
        refine ⟨ctr2, ?_⟩
        rw [hchead, warm_up_go_step_new avail done ctr name cls _ ip _ hl, hrec]
        simp [warmSpecGo, hact, hnone, hfh, List.append_assoc]

theorem warmSpecGo_names : ∀ (todo : List (String × HNode)) (ctr : Nat)
    (seen : List (Nat × (String × HAction))),
    (warmSpecGo ctr seen todo).map (·.1) = todo.map (·.1) := by
  intro todo
  induction todo with
  | nil => intro ctr seen; rfl
  | cons hd rest ih =>
    intro ctr seen
    obtain ⟨name, nd⟩ := hd
    cases hact : nd.action with
    | fn k => simp [warmSpecGo, hact, ih]
    | act s => simp [warmSpecGo, hact, ih]
    | inst id cls ip =>
      cases ho : nlookup seen id <;> simp [warmSpecGo, hact, ho, ih]

theorem warmSpecGo_length (todo : List (String × HNode)) (ctr : Nat)
    (seen : List (Nat × (String × HAction))) :
    (warmSpecGo ctr seen todo).length = todo.length := by
  have := congrArg List.length (warmSpecGo_names todo ctr seen)
  simpa using this

theorem warmSpecGo_params : ∀ (todo : List (String × HNode)) (ctr : Nat)
    (seen : List (Nat × (String × HAction))) (i : Nat) (inp outp : String × HNode),
    todo.get? i = some inp → (warmSpecGo ctr seen todo).get? i = some outp →
    isWarmA inp.2.action = true →
    outp.2.parameters = warmParams (coolParams inp.2.parameters) := by
  intro todo
  induction todo with
  | nil => intro ctr seen i inp outp h; simp at h
  | cons hd rest ih =>
    intro ctr seen i inp outp hin hout hw
    obtain ⟨name, nd⟩ := hd
    cases i with
    | zero =>
      simp only [List.get?] at hin
      injection hin with hin
      subst hin
      cases hact : nd.action with
      | fn k =>
        simp only [warmSpecGo, hact] at hout
        simp only [List.get?] at hout
        injection hout with hout
        subst hout
        rfl
      | act s => rw [hact] at hw; simp [isWarmA] at hw
      | inst id cls ip =>
        cases ho : nlookup seen id with
        | some e =>
          simp only [warmSpecGo, hact, ho] at hout
          simp only [List.get?] at hout
          injection hout with hout
          subst hout
          rfl
        | none =>
          simp only [warmSpecGo, hact, ho] at hout
          simp only [List.get?] at hout
          injection hout with hout
          subst hout
          rfl
    | succ n =>
      simp only [List.get?] at hin
      cases hact : nd.action with
      | fn k =>
        simp only [warmSpecGo, hact] at hout
        simp only [List.get?] at hout
        exact ih ctr seen n inp outp hin hout hw
      | act s =>
        simp only [warmSpecGo, hact] at hout
        simp only [List.get?] at hout
        exact ih ctr seen n inp outp hin hout hw
      | inst id cls ip =>
        cases ho : nlookup seen id with
        | some e =>
          simp only [warmSpecGo, hact, ho] at hout
          simp only [List.get?] at hout
          exact ih ctr seen n inp outp hin hout hw
        | none =>
          simp only [warmSpecGo, hact, ho] at hout
          simp only [List.get?] at hout
          exact ih (ctr + 1) _ n inp outp hin hout hw

theorem warmSpecGo_fn : ∀ (todo : List (String × HNode)) (ctr : Nat)
    (seen : List (Nat × (String × HAction))) (i : Nat) (inp outp : String × HNode)
    (k : String),
    todo.get? i = some inp → (warmSpecGo ctr seen todo).get? i = some outp →
    inp.2.action = .fn k →
    outp.2.action = .fn k := by
  intro todo
  induction todo with
  | nil => intro ctr seen i inp outp k h; simp at h
  | cons hd rest ih =>
    intro ctr seen i inp outp k hin hout hk
    obtain ⟨name, nd⟩ := hd
    cases i with
    | zero =>
      simp only [List.get?] at hin
      injection hin with hin
      subst hin
      have hk2 : nd.action = .fn k := by simpa using hk
      simp only [warmSpecGo, hk2] at hout
      simp only [List.get?] at hout
      injection hout with hout
      subst hout
      rfl
    | succ n =>
      simp only [List.get?] at hin
      cases hact : nd.action with
      | fn k2 =>
        simp only [warmSpecGo, hact] at hout
        simp only [List.get?] at hout
        exact ih ctr seen n inp outp k hin hout hk
      | act s =>
        simp only [warmSpecGo, hact] at hout
        simp only [List.get?] at hout
        exact ih ctr seen n inp outp k hin hout hk
      | inst id cls ip =>
        cases ho : nlookup seen id with
        | some e =>
          simp only [warmSpecGo, hact, ho] at hout
          simp only [List.get?] at hout
          exact ih ctr seen n inp outp k hin hout hk
        | none =>
          simp only [warmSpecGo, hact, ho] at hout
          simp only [List.get?] at hout
          exact ih (ctr + 1) _ n inp outp k hin hout hk

theorem actionEq_fn_inv (k : String) (x : HAction) (h : actionEq (.fn k) x = true) :
    x = .fn k := by
  cases x <;> simp [actionEq] at h
  rw [h]

theorem actionEq_inst_inv (id : Nat) (c : String) (i : List (String × Value))
    (x : HAction) (h : actionEq (.inst id c i) x = true) :
    ∃ c2 i2, x = .inst id c2 i2 := by
  cases x with
  | fn k => simp [actionEq] at h
  | act s => simp [actionEq] at h
  | inst id2 c2 i2 =>
    simp [actionEq] at h
    exact ⟨c2, i2, by rw [h]⟩

theorem actionEq_symm (a b : HAction) (h : actionEq a b = true) :
    actionEq b a = true := by
  cases a <;> cases b <;> simp [actionEq] at h ⊢ <;> exact h.symm

theorem actionEq_trans (a b c : HAction) (h1 : actionEq a b = true)
    (h2 : actionEq b c = true) : actionEq a c = true := by
  cases a <;> cases b <;> cases c <;> simp [actionEq] at h1 h2 ⊢ <;>
    exact h1.trans h2

theorem hasInitParams_of_actionEq (a b : HAction) (h : actionEq a b = true)
    (hi : hasInitParams a = true) : hasInitParams b = true := by
  cases a <;> cases b <;> simp [actionEq, hasInitParams] at h hi ⊢

theorem find?_none_iff_any_false {α : Type} (l : List α) (p : α → Bool) :
    l.find? p = none ↔ l.any p = false := by
  induction l with
  | nil => simp
  | cons hd tl ih =>
    cases hp : p hd
    · simp [List.find?_cons, List.any_cons, hp, ih]
    · simp [List.find?_cons, List.any_cons, hp]

theorem warmSpecGo_lookup : ∀ (todo : List (String × HNode)) (ctr : Nat)
    (seen : List (Nat × (String × HAction))) (j : Nat) (inp outp : String × HNode)
    (id : Nat) (cls : String) (ip : List (String × Value)) (e : String × HAction),
    nlookup seen id = some e →
    todo.get? j = some inp → (warmSpecGo ctr seen todo).get? j = some outp →
    inp.2.action = .inst id cls ip →
    outp.2.action = e.2 := by
  intro todo
  induction todo with
  | nil => intro ctr seen j inp outp id cls ip e _ h; simp at h
  | cons hd rest ih =>
    intro ctr seen j inp outp id cls ip e hse hin hout hk
    obtain ⟨name, nd⟩ := hd
    cases j with
    | zero =>
      simp only [List.get?] at hin
      injection hin with hin
      subst hin
      have hk2 : nd.action = .inst id cls ip := by simpa using hk
      simp only [warmSpecGo, hk2, hse] at hout
      simp only [List.get?] at hout
      injection hout with hout
      subst hout
      rfl
    | succ n =>
      simp only [List.get?] at hin
      cases hact : nd.action with
      | fn k =>
        simp only [warmSpecGo, hact] at hout
        simp only [List.get?] at hout
        exact ih ctr seen n inp outp id cls ip e hse hin hout hk
      | act s =>
        simp only [warmSpecGo, hact] at hout
        simp only [List.get?] at hout
        exact ih ctr seen n inp outp id cls ip e hse hin hout hk
      | inst id2 cls2 ip2 =>
        cases ho : nlookup seen id2 with
        | some e2 =>
          simp only [warmSpecGo, hact, ho] at hout
          simp only [List.get?] at hout
          exact ih ctr seen n inp outp id cls ip e hse hin hout hk
        | none =>
          simp only [warmSpecGo, hact, ho] at hout
          simp only [List.get?] at hout
          exact ih (ctr + 1) _ n inp outp id cls ip e
            (nlookup_append_left _ _ _ _ hse) hin hout hk

theorem warmSpecGo_share : ∀ (todo : List (String × HNode)) (ctr : Nat)
    (seen : List (Nat × (String × HAction))) (i j : Nat)
    (pi pj qi qj : String × HNode),
    (∀ x ∈ todo, isWarmA x.2.action = true) →
    todo.get? i = some pi → todo.get? j = some pj →
    (warmSpecGo ctr seen todo).get? i = some qi →
    (warmSpecGo ctr seen todo).get? j = some qj →
    actionEq pi.2.action pj.2.action = true →
    qi.2.action = qj.2.action := by
  intro todo
  induction todo with
  | nil => intro ctr seen i j pi pj qi qj _ h; simp at h
  | cons hd rest ih =>
    intro ctr seen i j pi pj qi qj hw hi hj hqi hqj heq
    obtain ⟨name, nd⟩ := hd
    have hwrest : ∀ x ∈ rest, isWarmA x.2.action = true :=
      fun x hx => hw x (List.mem_cons_of_mem _ hx)
    cases i with
    | zero =>
      simp only [List.get?] at hi
      injection hi with hi
      subst hi
      cases j with
      | zero =>
        simp only [List.get?] at hj
        injection hj with hj
        rw [hqi] at hqj
        injection hqj with hqj
        rw [hqj]
      | succ n =>
        simp only [List.get?] at hj
        cases hact : nd.action with
        | act s =>
          have := hw (name, nd) (List.mem_cons_self _ _)
          rw [hact] at this
          simp [isWarmA] at this
        | fn k =>
          have heq2 : actionEq (HAction.fn k) pj.2.action = true := by
            rw [← hact]; simpa using heq
          have hpj : pj.2.action = .fn k := actionEq_fn_inv _ _ heq2
          simp only [warmSpecGo, hact] at hqi hqj
          simp only [List.get?] at hqi hqj
          injection hqi with hqi
          subst hqi
          simp only []
          exact (warmSpecGo_fn rest ctr seen n pj qj k hj hqj hpj).symm
        | inst id cls ip =>
          have heq2 : actionEq (HAction.inst id cls ip) pj.2.action = true := by
            rw [← hact]; simpa using heq
          obtain ⟨c2, i2, hpj⟩ := actionEq_inst_inv _ _ _ _ heq2
          cases ho : nlookup seen id with
          | some e =>
            simp only [warmSpecGo, hact, ho] at hqi hqj
            simp only [List.get?] at hqi hqj
            injection hqi with hqi
            subst hqi
            exact (warmSpecGo_lookup rest ctr seen n pj qj id c2 i2 e ho hj hqj hpj).symm
          | none =>
            simp only [warmSpecGo, hact, ho] at hqi hqj
            simp only [List.get?] at hqi hqj
            injection hqi with hqi
            subst hqi
            have hse : nlookup (seen ++ [(id, (name, HAction.inst ctr cls ip))]) id
                = some (name, HAction.inst ctr cls ip) := by
              rw [nlookup_append_right _ _ _ ho]
              simp [nlookup]
            exact (warmSpecGo_lookup rest (ctr + 1) _ n pj qj id c2 i2 _ hse hj hqj hpj).symm
    | succ m =>
      simp only [List.get?] at hi
      cases j with
      | zero =>
        simp only [List.get?] at hj
        injection hj with hj
        subst hj
        cases hact : nd.action with
        | act s =>
          have := hw (name, nd) (List.mem_cons_self _ _)
          rw [hact] at this
          simp [isWarmA] at this
        | fn k =>
          have heq2 : actionEq (HAction.fn k) pi.2.action = true := by
            rw [← hact]
            exact actionEq_symm _ _ (by simpa using heq)
          have hpi : pi.2.action = .fn k := actionEq_fn_inv _ _ heq2
          simp only [warmSpecGo, hact] at hqi hqj
          simp only [List.get?] at hqi hqj
          injection hqj with hqj
          subst hqj
          exact warmSpecGo_fn rest ctr seen m pi qi k hi hqi hpi
        | inst id cls ip =>
          have heq2 : actionEq (HAction.inst id cls ip) pi.2.action = true := by
            rw [← hact]
            exact actionEq_symm _ _ (by simpa using heq)
          obtain ⟨c2, i2, hpi⟩ := actionEq_inst_inv _ _ _ _ heq2
          cases ho : nlookup seen id with
          | some e =>
            simp only [warmSpecGo, hact, ho] at hqi hqj
            simp only [List.get?] at hqi hqj
            injection hqj with hqj
            subst hqj
            exact warmSpecGo_lookup rest ctr seen m pi qi id c2 i2 e ho hi hqi hpi
          | none =>
            simp only [warmSpecGo, hact, ho] at hqi hqj
            simp only [List.get?] at hqi hqj
            injection hqj with hqj
            subst hqj
            have hse : nlookup (seen ++ [(id, (name, HAction.inst ctr cls ip))]) id
                = some (name, HAction.inst ctr cls ip) := by
              rw [nlookup_append_right _ _ _ ho]
              simp [nlookup]
            exact warmSpecGo_lookup rest (ctr + 1) _ m pi qi id c2 i2 _ hse hi hqi hpi
      | succ n =>
        simp only [List.get?] at hj
        cases hact : nd.action with
        | act s =>
          simp only [warmSpecGo, hact] at hqi hqj
          simp only [List.get?] at hqi hqj
          exact ih ctr seen m n pi pj qi qj hwrest hi hj hqi hqj heq
        | fn k =>
          simp only [warmSpecGo, hact] at hqi hqj
          simp only [List.get?] at hqi hqj
          exact ih ctr seen m n pi pj qi qj hwrest hi hj hqi hqj heq
        | inst id cls ip =>
          cases ho : nlookup seen id with
          | some e =>
            simp only [warmSpecGo, hact, ho] at hqi hqj
            simp only [List.get?] at hqi hqj
            exact ih ctr seen m n pi pj qi qj hwrest hi hj hqi hqj heq
          | none =>
            simp only [warmSpecGo, hact, ho] at hqi hqj
            simp only [List.get?] at hqi hqj
            exact ih (ctr + 1) _ m n pi pj qi qj hwrest hi hj hqi hqj heq

theorem warmSpecGo_shape : ∀ (todo : List (String × HNode)) (ctr : Nat)
    (seen : List (Nat × (String × HAction))) (i : Nat) (inp outp : String × HNode)
    (id : Nat) (cls : String) (ip : List (String × Value)),
    (∀ id2 e, nlookup seen id2 = some e →
      ∀ x ∈ todo, ∀ c2 i2, x.2.action = HAction.inst id2 c2 i2 →
        ∃ fid, e.2 = HAction.inst fid c2 i2) →
    (∀ x ∈ todo, ∀ y ∈ todo, ∀ id2 c1 i1 c2 i2,
      x.2.action = HAction.inst id2 c1 i1 → y.2.action = HAction.inst id2 c2 i2 →
        c1 = c2 ∧ i1 = i2) →
    todo.get? i = some inp → (warmSpecGo ctr seen todo).get? i = some outp →
    inp.2.action = .inst id cls ip →
    ∃ fid, outp.2.action = .inst fid cls ip := by
  intro todo
  induction todo with
  | nil => intro ctr seen i inp outp id cls ip _ _ h; simp at h
  | cons hd rest ih =>
    intro ctr seen i inp outp id cls ip hsinv hid hin hout hk
    obtain ⟨name, nd⟩ := hd
    have hsinvrest : ∀ id2 e, nlookup seen id2 = some e →
        ∀ x ∈ rest, ∀ c2 i2, x.2.action = HAction.inst id2 c2 i2 →
          ∃ fid, e.2 = HAction.inst fid c2 i2 :=
      fun id2 e he x hx => hsinv id2 e he x (List.mem_cons_of_mem _ hx)
    have hidrest : ∀ x ∈ rest, ∀ y ∈ rest, ∀ id2 c1 i1 c2 i2,
        x.2.action = HAction.inst id2 c1 i1 → y.2.action = HAction.inst id2 c2 i2 →
          c1 = c2 ∧ i1 = i2 :=
      fun x hx y hy => hid x (List.mem_cons_of_mem _ hx) y (List.mem_cons_of_mem _ hy)
    cases i with
    | zero =>
      simp only [List.get?] at hin
      injection hin with hin
      subst hin
      have hk2 : nd.action = .inst id cls ip := by simpa using hk
      cases ho : nlookup seen id with
      | some e =>
        simp only [warmSpecGo, hk2, ho] at hout
        simp only [List.get?] at hout
        injection hout with hout
        subst hout
        exact hsinv id e ho (name, nd) (List.mem_cons_self _ _) cls ip hk2
      | none =>
        simp only [warmSpecGo, hk2, ho] at hout
        simp only [List.get?] at hout
        injection hout with hout
        subst hout
        exact ⟨ctr, rfl⟩
    | succ n =>
      simp only [List.get?] at hin
      cases hact : nd.action with
      | fn k =>
        simp only [warmSpecGo, hact] at hout
        simp only [List.get?] at hout
        exact ih ctr seen n inp outp id cls ip hsinvrest hidrest hin hout hk
      | act s =>
        simp only [warmSpecGo, hact] at hout
        simp only [List.get?] at hout
        exact ih ctr seen n inp outp id cls ip hsinvrest hidrest hin hout hk
      | inst id2 cls2 ip2 =>
        cases ho : nlookup seen id2 with
        | some e =>
          simp only [warmSpecGo, hact, ho] at hout
          simp only [List.get?] at hout
          exact ih ctr seen n inp outp id cls ip hsinvrest hidrest hin hout hk
        | none =>
          simp only [warmSpecGo, hact, ho] at hout
          simp only [List.get?] at hout
          refine ih (ctr + 1) _ n inp outp id cls ip ?_ hidrest hin hout hk
          intro id3 e3 he3 x hx c3 i3 hx3
          cases ho3 : nlookup seen id3 with
          | some e0 =>
            rw [nlookup_append_left _ _ _ _ ho3] at he3
            injection he3 with he3
            rw [← he3]
            exact hsinvrest id3 e0 ho3 x hx c3 i3 hx3
          | none =>
            rw [nlookup_append_right _ _ _ ho3] at he3
            simp only [nlookup] at he3
            by_cases hid3 : id2 = id3
            · subst hid3
              rw [if_pos rfl] at he3
              injection he3 with he3
              subst he3
              have := hid (name, nd) (List.mem_cons_self _ _)
                x (List.mem_cons_of_mem _ hx) id2 cls2 ip2 c3 i3 hact hx3
              exact ⟨ctr, by rw [this.1, this.2]⟩
            · rw [if_neg hid3] at he3
              exact Option.noConfusion he3

theorem coolSpecGo_names : ∀ (todo : List (String × HNode))
    (reused : List (String × HAction)),
    (coolSpecGo reused todo).map (·.1) = todo.map (·.1) := by
  intro todo
  induction todo with
  | nil => intro reused; rfl
  | cons hd rest ih =>
    intro reused
    obtain ⟨name, nd⟩ := hd
    simp [coolSpecGo, ih]

/-- Back-reference characterization of the cool phase: the `instance_id`
written on the `j`-th node is the name of the first earlier node holding an
identical instance action (and absent on first occurrences, function nodes
and nodes with no sharer), where "earlier" ranges over the abstract prefix
`pre` already folded into `reused` plus the processed part of `todo`. -/
theorem coolSpecGo_backref : ∀ (todo : List (String × HNode))
    (reused : List (String × HAction)) (pre : List (String × HNode)),
    (∀ x ∈ todo, x.2.instanceId = none) →
    (∀ r ∈ reused, hasInitParams r.2 = true) →
    (∀ a, reused.any (fun r => actionEq r.2 a)
        = pre.any (fun kv => actionEq kv.2.action a && hasInitParams kv.2.action)) →
    (∀ a, (reused.find? (fun r => actionEq r.2 a)).map (·.1) = firstSharer pre a) →
    ∀ j (inp outp : String × HNode),
      todo.get? j = some inp → (coolSpecGo reused todo).get? j = some outp →
      outp.2.instanceId = firstSharer (pre ++ todo.take j) inp.2.action := by
  intro todo
  induction todo with
  | nil => intro reused pre _ _ _ _ j inp outp h; simp at h
  | cons hd rest ih =>
    intro reused pre hfresh hR0 hRS1 hRS2 j inp outp hin hout
    obtain ⟨name, nd⟩ := hd
    cases j with
    | zero =>
      simp only [List.get?] at hin
      injection hin with hin
      subst hin
      simp only [List.take_zero, List.append_nil]
      by_cases hc1 : reused.any (fun kv => actionEq kv.2 nd.action) = true
      · simp only [coolSpecGo, hc1, if_true] at hout
        simp only [List.get?] at hout
        injection hout with hout
        subst hout
        cases hf : reused.find? (fun r => actionEq r.2 nd.action) with
        | none =>
          rw [(find?_none_iff_any_false _ _).mp hf] at hc1
          exact Bool.noConfusion hc1
        | some kv =>
          have h2 := hRS2 nd.action
          rw [hf] at h2
          simp only [firstKeyFor, hf]
          rw [← h2]
          rfl
      · have hcf : reused.any (fun kv => actionEq kv.2 nd.action) = false := by
          revert hc1; cases reused.any (fun kv => actionEq kv.2 nd.action) <;> simp
        have hfs : firstSharer pre nd.action = none := by
          rw [← hRS2 nd.action,
            (find?_none_iff_any_false _ _).mpr hcf]
          rfl
        have hfr : nd.instanceId = none := hfresh (name, nd) (List.mem_cons_self _ _)
        by_cases hc2 : hasInitParams nd.action = true
        · simp only [coolSpecGo, hcf, Bool.false_eq_true, if_false, hc2, if_true] at hout
          simp only [List.get?] at hout
          injection hout with hout
          subst hout
          rw [hfs]
          exact hfr
        · have hc2f : hasInitParams nd.action = false := by
            revert hc2; cases hasInitParams nd.action <;> simp
          simp only [coolSpecGo, hcf, Bool.false_eq_true, if_false, hc2f] at hout
          simp only [List.get?] at hout
          injection hout with hout
          subst hout
          rw [hfs]
          exact hfr
    | succ n =>
      simp only [List.get?] at hin
      have htake : (pre ++ ((name, nd) :: rest).take (n + 1))
          = (pre ++ [(name, nd)]) ++ rest.take n := by
        simp [List.take_succ_cons]
      rw [htake]
      have hfreshrest : ∀ x ∈ rest, x.2.instanceId = none :=
        fun x hx => hfresh x (List.mem_cons_of_mem _ hx)
      by_cases hc1 : reused.any (fun kv => actionEq kv.2 nd.action) = true
      · -- recorded already: reused unchanged, prefix grows by a sharer node
        simp only [coolSpecGo, hc1, if_true] at hout
        simp only [List.get?] at hout
        have hInd : hasInitParams nd.action = true := by
          rcases List.any_eq_true.mp hc1 with ⟨r, hr, hra⟩
          exact hasInitParams_of_actionEq _ _ hra (hR0 r hr)
        have hRS1n : ∀ a, reused.any (fun r => actionEq r.2 a)
            = (pre ++ [(name, nd)]).any
              (fun kv => actionEq kv.2.action a && hasInitParams kv.2.action) := by
          intro a
          rw [List.any_append]
          cases hEq : actionEq nd.action a with
          | true =>
            rcases List.any_eq_true.mp hc1 with ⟨r, hr, hra⟩
            have : reused.any (fun r => actionEq r.2 a) = true :=
              List.any_eq_true.mpr ⟨r, hr, actionEq_trans _ _ _ hra hEq⟩
            rw [this]
            simp [hEq, hInd]
          | false =>
            rw [hRS1 a]
            simp [hEq]
        have hRS2n : ∀ a, (reused.find? (fun r => actionEq r.2 a)).map (·.1)
            = firstSharer (pre ++ [(name, nd)]) a := by
          intro a
          cases hfp : (pre.find?
              (fun kv => actionEq kv.2.action a && hasInitParams kv.2.action)) with
          | some kv =>
            unfold firstSharer
            rw [find?_append_some _ _ _ _ hfp]
            have := hRS2 a
            unfold firstSharer at this
            rw [hfp] at this
            exact this
          | none =>
            have hfsn : firstSharer pre a = none := by
              unfold firstSharer; rw [hfp]; rfl
            have hrn : (reused.find? (fun r => actionEq r.2 a)).map (·.1) = none := by
              rw [hRS2 a]; exact hfsn
            have hrn2 : reused.find? (fun r => actionEq r.2 a) = none := by
              cases hx : reused.find? (fun r => actionEq r.2 a)
              · rfl
              · rw [hx] at hrn; simp at hrn
            cases hEq : actionEq nd.action a with
            | true =>
              rcases List.any_eq_true.mp hc1 with ⟨r, hr, hra⟩
              have : reused.any (fun r => actionEq r.2 a) = true :=
                List.any_eq_true.mpr ⟨r, hr, actionEq_trans _ _ _ hra hEq⟩
              rw [(find?_none_iff_any_false _ _).mp hrn2] at this
              exact Bool.noConfusion this
            | false =>
              rw [hrn]
              unfold firstSharer
              rw [find?_append_none _ _ _ hfp]
              simp [List.find?_cons, hEq]
        exact ih reused (pre ++ [(name, nd)]) hfreshrest hR0 hRS1n hRS2n n inp outp hin hout
      · have hcf : reused.any (fun kv => actionEq kv.2 nd.action) = false := by
          revert hc1; cases reused.any (fun kv => actionEq kv.2 nd.action) <;> simp
        by_cases hc2 : hasInitParams nd.action = true
        · -- first occurrence of an instance: recorded in reused
          simp only [coolSpecGo, hcf, Bool.false_eq_true, if_false, hc2, if_true] at hout
          simp only [List.get?] at hout
          have hR0n : ∀ r ∈ reused ++ [(name, nd.action)], hasInitParams r.2 = true := by
            intro r hr
            rcases List.mem_append.mp hr with hr | hr
            · exact hR0 r hr
            · simp at hr; rw [hr]; exact hc2
          have hRS1n : ∀ a, (reused ++ [(name, nd.action)]).any (fun r => actionEq r.2 a)
              = (pre ++ [(name, nd)]).any
                (fun kv => actionEq kv.2.action a && hasInitParams kv.2.action) := by
            intro a
            rw [List.any_append, List.any_append, hRS1 a]
            simp [hc2]
          have hRS2n : ∀ a, ((reused ++ [(name, nd.action)]).find?
                (fun r => actionEq r.2 a)).map (·.1)
              = firstSharer (pre ++ [(name, nd)]) a := by
            intro a
            cases hfr2 : reused.find? (fun r => actionEq r.2 a) with
            | some kv =>
              rw [find?_append_some _ _ _ _ hfr2]
              have h2 := hRS2 a
              rw [hfr2] at h2
              unfold firstSharer at h2 ⊢
              cases hfp : pre.find?
                  (fun kv => actionEq kv.2.action a && hasInitParams kv.2.action) with
              | none => rw [hfp] at h2; simp at h2
              | some kv2 =>
                rw [hfp] at h2
                rw [find?_append_some _ _ _ _ hfp]
                exact h2
            | none =>
              have hfsn : firstSharer pre a = none := by
                rw [← hRS2 a, hfr2]; rfl
              have hfp : pre.find?
                  (fun kv => actionEq kv.2.action a && hasInitParams kv.2.action) = none := by
                unfold firstSharer at hfsn
                cases hx : pre.find?
                    (fun kv => actionEq kv.2.action a && hasInitParams kv.2.action)
                · rfl
                · rw [hx] at hfsn; simp at hfsn
              rw [find?_append_none _ _ _ hfr2]
              unfold firstSharer
              rw [find?_append_none _ _ _ hfp]
              cases hEq : actionEq nd.action a with
              | true => simp [List.find?_cons, hEq, hc2]
              | false => simp [List.find?_cons, hEq, hc2]
          exact ih (reused ++ [(name, nd.action)]) (pre ++ [(name, nd)])
            hfreshrest hR0n hRS1n hRS2n n inp outp hin hout
        · -- a function node: nothing recorded, prefix entry can never match
          have hc2f : hasInitParams nd.action = false := by
            revert hc2; cases hasInitParams nd.action <;> simp
          simp only [coolSpecGo, hcf, Bool.false_eq_true, if_false, hc2f] at hout
          simp only [List.get?] at hout
          have hRS1n : ∀ a, reused.any (fun r => actionEq r.2 a)
              = (pre ++ [(name, nd)]).any
                (fun kv => actionEq kv.2.action a && hasInitParams kv.2.action) := by
            intro a
            rw [List.any_append, hRS1 a]
            simp [hc2f]
          have hRS2n : ∀ a, (reused.find? (fun r => actionEq r.2 a)).map (·.1)
              = firstSharer (pre ++ [(name, nd)]) a := by
            intro a
            unfold firstSharer
            cases hfp : pre.find?
                (fun kv => actionEq kv.2.action a && hasInitParams kv.2.action) with
            | some kv =>
              rw [find?_append_some _ _ _ _ hfp]
              have := hRS2 a
              unfold firstSharer at this
              rw [hfp] at this
              exact this
            | none =>
              rw [find?_append_none _ _ _ hfp]
              have := hRS2 a
              unfold firstSharer at this
              rw [hfp] at this
              rw [this]
              simp [List.find?_cons, hc2f]
          exact ih reused (pre ++ [(name, nd)]) hfreshrest hR0 hRS1n hRS2n n inp outp hin hout

theorem mem_of_get? {α : Type} : ∀ (l : List α) (i : Nat) (a : α),
    l.get? i = some a → a ∈ l := by
  intro l
  induction l with
  | nil => intro i a h; simp at h
  | cons hd tl ih =>
    intro i a h
    cases i with
    | zero =>
      simp only [List.get?] at h
      injection h with h
      rw [h]
      exact List.mem_cons_self _ _
    | succ n =>
      simp only [List.get?] at h
      exact List.mem_cons_of_mem _ (ih n a h)

/-- C7: for every warm graph whose node actions are registered and report
their init parameters — all actions are live functions or instances
(`isWarmA`), each is registered consistently in `available_actions`
(`regOK`), no node carries a leftover `instance_id`, node names are unique,
and object identity determines class and `init_parameters` (as Python's
`id` does) — serializing with `cool_down` and then deserializing with
`warm_up` succeeds and reproduces an equivalent graph: the same node names
in both the cooled and the warmed graph, the same edges (with their labels
and weights, untouched by both functions), default parameters equal to the
originals after the JSON encode/decode round trip (`None` and `{}` pass
through untouched, a non-empty dict comes back as its normalized decode),
every shared instance recorded in the cooled graph as an `instance_id`
back-reference to the first occurrence's node name (and no back-reference
on first occurrences or function nodes), function actions restored exactly,
instance actions restored with their class and init parameters, and any two
positions sharing one instance rebound to one single shared instance. -/
theorem C7_cool_warm_roundtrip (g : HGraph) (avail : Registry) (nextId : Nat)
    (hwarm : ∀ x ∈ g.nodes, isWarmA x.2.action = true)
    (hreg : ∀ x ∈ g.nodes, regOK avail x.2.action = true)
    (hfresh : ∀ x ∈ g.nodes, x.2.instanceId = none)
    (hnodup : (g.nodes.map (·.1)).Nodup)
    (hid : ∀ x ∈ g.nodes, ∀ y ∈ g.nodes, ∀ id c1 i1 c2 i2,
      x.2.action = .inst id c1 i1 → y.2.action = .inst id c2 i2 →
        c1 = c2 ∧ i1 = i2) :
    ∃ gc gw ctr2,
      cool_down g = .ok gc
      ∧ warm_up avail nextId gc = .ok (gw, ctr2)
      ∧ gc.edges = g.edges
      ∧ gw.edges = g.edges
      ∧ gc.nodes.map (·.1) = g.nodes.map (·.1)
      ∧ gw.nodes.map (·.1) = g.nodes.map (·.1)
      ∧ (∀ i inp outp, g.nodes.get? i = some inp → gw.nodes.get? i = some outp →
          outp.2.parameters = warmParams (coolParams inp.2.parameters))
      ∧ warmParams (coolParams HParams.pnone) = HParams.pnone
      ∧ warmParams (coolParams (HParams.pwarm [])) = HParams.pwarm []
      ∧ (∀ d, d ≠ [] →
          warmParams (coolParams (HParams.pwarm d))
            = HParams.pwarm (jsonNormalizeEntries d))
      ∧ (∀ j inp outp, g.nodes.get? j = some inp → gc.nodes.get? j = some outp →
          outp.2.instanceId = firstSharer (g.nodes.take j) inp.2.action)
      ∧ (∀ i inp outp k, g.nodes.get? i = some inp → gw.nodes.get? i = some outp →
          inp.2.action = .fn k → outp.2.action = .fn k)
      ∧ (∀ i inp outp id cls ip, g.nodes.get? i = some inp →
          gw.nodes.get? i = some outp →
          inp.2.action = .inst id cls ip → ∃ fid, outp.2.action = .inst fid cls ip)
      ∧ (∀ i j pi pj qi qj, g.nodes.get? i = some pi → g.nodes.get? j = some pj →
          gw.nodes.get? i = some qi → gw.nodes.get? j = some qj →
          actionEq pi.2.action pj.2.action = true → qi.2.action = qj.2.action) := by
  have hcool : cool_down_go [] g.nodes = .ok (coolSpecGo [] g.nodes) :=
    cool_down_go_spec g.nodes [] hwarm
  have hnd0 : ((([] : List (String × HNode)).map (·.1)) ++ g.nodes.map (·.1)).Nodup := by
    simpa using hnodup
  obtain ⟨ctr2, hwgo⟩ := warm_cool_go avail g.nodes [] [] [] nextId hwarm hreg hfresh
    hnd0 (fun r hr => absurd hr (List.not_mem_nil r)) (fun id => rfl)
    (fun id e he => Option.noConfusion he)
  refine ⟨{ g with nodes := coolSpecGo [] g.nodes },
    { g with nodes := warmSpecGo nextId [] g.nodes }, ctr2,
    ?_, ?_, rfl, rfl, ?_, ?_, ?_, rfl, rfl, ?_, ?_, ?_, ?_, ?_⟩
  · unfold cool_down
    rw [hcool]
  · unfold warm_up
    simp only []
    rw [hwgo]
    simp
  · exact coolSpecGo_names g.nodes []
  · exact warmSpecGo_names g.nodes nextId []
  · intro i inp outp hin hout
    exact warmSpecGo_params g.nodes nextId [] i inp outp hin hout
      (hwarm inp (mem_of_get? _ _ _ hin))
  · intro d hd
    cases d with
    | nil => exact absurd rfl hd
    | cons x xs => rfl
  · intro j inp outp hin hout
    have := coolSpecGo_backref g.nodes [] [] hfresh
      (fun r hr => absurd hr (List.not_mem_nil r)) (fun a => rfl) (fun a => rfl)
      j inp outp hin hout
    simpa using this
  · intro i inp outp k hin hout hk
    exact warmSpecGo_fn g.nodes nextId [] i inp outp k hin hout hk
  · intro i inp outp id cls ip hin hout hk
    exact warmSpecGo_shape g.nodes nextId [] i inp outp id cls ip
      (fun id2 e he => Option.noConfusion he) hid hin hout hk
  · intro i j pi pj qi qj hi hj hqi hqj heq
    exact warmSpecGo_share g.nodes nextId [] i j pi pj qi qj hwarm hi hj hqi hqj heq

/-- Witness for C7 on the concrete shared-instance graph: all hypotheses
discharged by evaluation. -/
theorem C7_cool_warm_roundtrip_witness :
    ∃ gc gw ctr2,
      cool_down c7Graph = .ok gc
      ∧ warm_up c7Avail 100 gc = .ok (gw, ctr2)
      ∧ gc.edges = c7Graph.edges
      ∧ gw.edges = c7Graph.edges
      ∧ gc.nodes.map (·.1) = c7Graph.nodes.map (·.1)
      ∧ gw.nodes.map (·.1) = c7Graph.nodes.map (·.1)
      ∧ (∀ i inp outp, c7Graph.nodes.get? i = some inp →
          gw.nodes.get? i = some outp →
          outp.2.parameters = warmParams (coolParams inp.2.parameters))
      ∧ warmParams (coolParams HParams.pnone) = HParams.pnone
      ∧ warmParams (coolParams (HParams.pwarm [])) = HParams.pwarm []
      ∧ (∀ d, d ≠ [] →
          warmParams (coolParams (HParams.pwarm d))
            = HParams.pwarm (jsonNormalizeEntries d))
      ∧ (∀ j inp outp, c7Graph.nodes.get? j = some inp →
          gc.nodes.get? j = some outp →
          outp.2.instanceId = firstSharer (c7Graph.nodes.take j) inp.2.action)
      ∧ (∀ i inp outp k, c7Graph.nodes.get? i = some inp →
          gw.nodes.get? i = some outp →
          inp.2.action = .fn k → outp.2.action = .fn k)
      ∧ (∀ i inp outp id cls ip, c7Graph.nodes.get? i = some inp →
          gw.nodes.get? i = some outp →
          inp.2.action = .inst id cls ip → ∃ fid, outp.2.action = .inst fid cls ip)
      ∧ (∀ i j pi pj qi qj, c7Graph.nodes.get? i = some pi →
          c7Graph.nodes.get? j = some pj →
          gw.nodes.get? i = some qi → gw.nodes.get? j = some qj →
          actionEq pi.2.action pj.2.action = true →
          qi.2.action = qj.2.action) :=
  C7_cool_warm_roundtrip c7Graph c7Avail 100
    (by decide) (by decide) (by decide) (by decide)
    (by
      intro x hx y hy id c1 i1 c2 i2 hx2 hy2
      simp only [c7Graph, List.mem_cons, List.not_mem_nil, or_false] at hx hy
      rcases hx with hx | hx | hx <;> rcases hy with hy | hy | hy <;>
        subst hx <;> subst hy <;> simp_all)

end Haystack
